import Mathlib

/-!
TINY scanner: shallow embedding of `scanner/scanner.go` and `scanner/token.go`.

A Go `string` is a sequence of bytes and `s.source[i]` reads one byte, so the
source text is a `List Byte`.  `rune(s.source[i])` is the numeric value of that
byte (a rune in `0..255`); runes are natural numbers here.

The cursor fields `start`, `current`, `line` are Go `int`s.  They only ever
count positions of the source (at most `len(source) + 1`), far below `2^63`,
so they are natural numbers and no wrap-around is modelled.

Go panics on an index or slice out of range; every such access is modelled
with an explicit bounds check whose failure is the outcome `panic`.  The four
`for` loops of the scanner run on a fuel counter; running out of fuel is the
outcome `fuelOut`, which carries the state reached so far.
-/

namespace TinyScanner

/-- One byte of a Go string. -/
abbrev Byte := Fin 256

/-- The byte of an ASCII character. -/
def byte (c : Char) : Byte := Fin.ofNat c.toNat

/-- The bytes of an ASCII text: how a Go string literal made of ASCII
characters is laid out in memory (one byte per character). -/
def ascii (s : String) : List Byte := s.toList.map byte

/-- The enumeration `TokenType` of `token.go`, in declaration order. -/
inductive TokenType where
  | ILLEGAL
  | EOF
  | IDENTIFIER
  | NUMBER
  | ASSIGN
  | EQUAL
  | LESSTHAN
  | PLUS
  | MINUS
  | MULT
  | DIV
  | OPENBRACKET
  | CLOSEDBRACKET
  | SEMICOLON
  | IF
  | THEN
  | END
  | REPEAT
  | UNTIL
  | READ
  | WRITE
  deriving DecidableEq, Repr

open TokenType

/-- The struct `Token` of `token.go` (field `Type` is spelled `Typ`, `Type`
being reserved). -/
structure Token where
  Typ : TokenType
  Value : List Byte
  Line : Nat
  deriving DecidableEq, Repr

/-- The map `keywords` of `token.go`: lookup returns the category and
whether the key is present. -/
def keywords (text : List Byte) : Option TokenType :=
  if text = ascii "if" then some IF
  else if text = ascii "then" then some THEN
  else if text = ascii "end" then some END
  else if text = ascii "repeat" then some REPEAT
  else if text = ascii "until" then some UNTIL
  else if text = ascii "read" then some READ
  else if text = ascii "write" then some WRITE
  else none

/-- The struct `Scanner` of `scanner.go`. -/
structure Scanner where
  source : List Byte
  tokens : List Token
  start : Nat
  current : Nat
  line : Nat
  deriving DecidableEq, Repr

/-- Go `NewScanner`: the fields not named are Go zero values. -/
def NewScanner (source : List Byte) : Scanner :=
  { source := source, tokens := [], start := 0, current := 0, line := 1 }

/-- Result of running a piece of the scanner that contains a loop. -/
inductive Outcome where
  | done (s : Scanner)
  | panic
  | fuelOut (s : Scanner)
  deriving DecidableEq, Repr

/-- Go `unicode.IsDigit` of the Go standard library on a rune `r <= 0xFF`
(`'0' <= r && r <= '9'` for Latin-1 runes); the scanner only passes runes
obtained from one byte. -/
def isDigit (r : Nat) : Bool := decide ('0'.toNat ≤ r) && decide (r ≤ '9'.toNat)

/-- Go `unicode.IsLetter` of the Go standard library on a rune `r <= 0xFF`:
the Latin-1 property table marks as letters `A-Z`, `a-z`, U+00AA, U+00B5,
U+00BA, U+00C0-U+00D6, U+00D8-U+00F6 and U+00F8-U+00FF. -/
def isAlpha (r : Nat) : Bool :=
  (decide ('A'.toNat ≤ r) && decide (r ≤ 'Z'.toNat))
    || (decide ('a'.toNat ≤ r) && decide (r ≤ 'z'.toNat))
    || decide (r = 0xAA) || decide (r = 0xB5) || decide (r = 0xBA)
    || (decide (0xC0 ≤ r) && decide (r ≤ 0xD6))
    || (decide (0xD8 ≤ r) && decide (r ≤ 0xF6))
    || (decide (0xF8 ≤ r) && decide (r ≤ 0xFF))

/-- Go `isAlphaNumeric`: a letter or a digit. -/
def isAlphaNumeric (r : Nat) : Bool := isAlpha r || isDigit r

/-- Go `isAtEnd`: `s.current >= len(s.source)`. -/
def isAtEnd (s : Scanner) : Bool := decide (s.current ≥ s.source.length)

/-- Go `advance`: `s.current++` and then the byte at `s.current-1`, a panic
when that index is out of range. -/
def advance (s : Scanner) : Option (Nat × Scanner) :=
  let s1 := { s with current := s.current + 1 }
  match s1.source[s1.current - 1]? with
  | some b => some (b.val, s1)
  | none => none

/-- Go `addToken`: the slice `s.source[s.start:s.current]` panics unless
`start <= current <= len(source)`. -/
def addToken (s : Scanner) (tokenType : TokenType) : Option Scanner :=
  if s.start ≤ s.current ∧ s.current ≤ s.source.length then
    let text := (s.source.drop s.start).take (s.current - s.start)
    some { s with tokens := s.tokens ++ [{ Typ := tokenType, Value := text, Line := s.line }] }
  else none

/-- Go `match`: false at the end or when the next byte differs, else consume
it. -/
def matchRune (s : Scanner) (expected : Nat) : Option (Bool × Scanner) :=
  if isAtEnd s then some (false, s)
  else
    match s.source[s.current]? with
    | none => none
    | some b =>
      if b.val ≠ expected then some (false, s)
      else some (true, { s with current := s.current + 1 })

/-- Go `peek`: rune 0 at the end, else the byte at `current`. -/
def peek (s : Scanner) : Option Nat :=
  if isAtEnd s then some 0
  else
    match s.source[s.current]? with
    | none => none
    | some b => some b.val

/-- Go `peekNext`: rune 0 when `current+1 >= len`, else the byte at
`current+1`. -/
def peekNext (s : Scanner) : Option Nat :=
  if s.current + 1 ≥ s.source.length then some 0
  else
    match s.source[s.current + 1]? with
    | none => none
    | some b => some b.val

/-- Lift a loop-free step into an `Outcome`. -/
def Outcome.ofOption : Option Scanner → Outcome
  | some s => Outcome.done s
  | none => Outcome.panic

/-- Go `comment`: the loop `for !s.isAtEnd()`; the `&&` evaluates `peekNext`
only when `peek` gave `'*'`. -/
def comment : Nat → Scanner → Outcome
  | 0, s => Outcome.fuelOut s
  | fuel + 1, s =>
    if isAtEnd s then Outcome.done s
    else
      match peek s with
      | none => Outcome.panic
      | some c =>
        match (if c = '*'.toNat then peekNext s else some 0) with
        | none => Outcome.panic
        | some n =>
          if c = '*'.toNat ∧ n = '/'.toNat then
            match advance s with
            | none => Outcome.panic
            | some (_, s1) =>
              match advance s1 with
              | none => Outcome.panic
              | some (_, s2) => Outcome.done s2
          else
            match peek s with
            | none => Outcome.panic
            | some c2 =>
              let s1 := if c2 = '\n'.toNat then { s with line := s.line + 1 } else s
              match advance s1 with
              | none => Outcome.panic
              | some (_, s2) => comment fuel s2

/-- The loop `for isDigit(s.peek()) { s.advance() }` of `number`. -/
def numberLoop : Nat → Scanner → Outcome
  | 0, s => Outcome.fuelOut s
  | fuel + 1, s =>
    match peek s with
    | none => Outcome.panic
    | some c =>
      if isDigit c then
        match advance s with
        | none => Outcome.panic
        | some (_, s1) => numberLoop fuel s1
      else Outcome.done s

/-- Go `number`: the loop, then `addToken(NUMBER)`. -/
def number (fuel : Nat) (s : Scanner) : Outcome :=
  match numberLoop fuel s with
  | Outcome.done s1 => Outcome.ofOption (addToken s1 NUMBER)
  | o => o

/-- The loop `for isAlphaNumeric(s.peek()) { s.advance() }` of
`identifier`. -/
def identifierLoop : Nat → Scanner → Outcome
  | 0, s => Outcome.fuelOut s
  | fuel + 1, s =>
    match peek s with
    | none => Outcome.panic
    | some c =>
      if isAlphaNumeric c then
        match advance s with
        | none => Outcome.panic
        | some (_, s1) => identifierLoop fuel s1
      else Outcome.done s

/-- Go `identifier`: the slice `s.source[s.start:s.current]` is looked up in
`keywords`. -/
def identifier (fuel : Nat) (s : Scanner) : Outcome :=
  match identifierLoop fuel s with
  | Outcome.done s1 =>
    if s1.start ≤ s1.current ∧ s1.current ≤ s1.source.length then
      let text := (s1.source.drop s1.start).take (s1.current - s1.start)
      match keywords text with
      | some tokenType => Outcome.ofOption (addToken s1 tokenType)
      | none => Outcome.ofOption (addToken s1 IDENTIFIER)
    else Outcome.panic
  | o => o

/-- Go `scanToken`: the `switch char` in source order. -/
def scanToken (fuel : Nat) (s : Scanner) : Outcome :=
  match advance s with
  | none => Outcome.panic
  | some (char, s) =>
    if char = '('.toNat then Outcome.ofOption (addToken s OPENBRACKET)
    else if char = ')'.toNat then Outcome.ofOption (addToken s CLOSEDBRACKET)
    else if char = ';'.toNat then Outcome.ofOption (addToken s SEMICOLON)
    else if char = '+'.toNat then Outcome.ofOption (addToken s PLUS)
    else if char = '-'.toNat then Outcome.ofOption (addToken s MINUS)
    else if char = '*'.toNat then Outcome.ofOption (addToken s MULT)
    else if char = '<'.toNat then Outcome.ofOption (addToken s LESSTHAN)
    else if char = '='.toNat then Outcome.ofOption (addToken s EQUAL)
    else if char = ':'.toNat then
      match matchRune s '='.toNat with
      | none => Outcome.panic
      | some (true, s1) => Outcome.ofOption (addToken s1 ASSIGN)
      | some (false, s1) => Outcome.ofOption (addToken s1 ILLEGAL)
    else if char = '/'.toNat then
      match matchRune s '*'.toNat with
      | none => Outcome.panic
      | some (true, s1) => comment fuel s1
      | some (false, s1) => Outcome.ofOption (addToken s1 DIV)
    else if char = ' '.toNat ∨ char = '\r'.toNat ∨ char = '\t'.toNat then Outcome.done s
    else if char = '\n'.toNat then Outcome.done { s with line := s.line + 1 }
    else if isDigit char then number fuel s
    else if isAlpha char then identifier fuel s
    else Outcome.ofOption (addToken s ILLEGAL)

/-- The loop `for !s.isAtEnd() { s.start = s.current; s.scanToken() }` of
`ScanTokens`. -/
def scanLoop : Nat → Scanner → Outcome
  | 0, s => Outcome.fuelOut s
  | fuel + 1, s =>
    if isAtEnd s then Outcome.done s
    else
      match scanToken fuel { s with start := s.current } with
      | Outcome.done s1 => scanLoop fuel s1
      | o => o

/-- The final token appended by `ScanTokens`. -/
def eofToken (line : Nat) : Token := { Typ := EOF, Value := ascii "EOF", Line := line }

/-- Go `ScanTokens`: the loop, then one `EOF` token; the returned slice is the
`tokens` field of the resulting scanner. -/
def ScanTokens (fuel : Nat) (s : Scanner) : Outcome :=
  match scanLoop fuel s with
  | Outcome.done s1 => Outcome.done { s1 with tokens := s1.tokens ++ [eofToken s1.line] }
  | o => o

/-- Go `NewScanner(source).ScanTokens()` run with fuel `len(source) + 1`: the
returned token slice, `none` on a panic or when the fuel runs out. -/
def scan (source : List Byte) : Option (List Token) :=
  match ScanTokens (source.length + 1) (NewScanner source) with
  | Outcome.done s => some s.tokens
  | _ => none

/-! ## Reading the source -/

/-- The rune at index `i`, rune 0 past the end. -/
def byteAt (src : List Byte) (i : Nat) : Nat :=
  match src[i]? with
  | some b => b.val
  | none => 0

/-- The Go slice `src[lo:hi]` for `lo <= hi <= len(src)`. -/
def slice (src : List Byte) (lo hi : Nat) : List Byte := (src.drop lo).take (hi - lo)

/-- The bounds invariant of the cursor. -/
def Inv (s : Scanner) : Prop := s.start ≤ s.current ∧ s.current ≤ s.source.length

instance (s : Scanner) : Decidable (Inv s) := by unfold Inv; infer_instance

/-- The category of the eight one-character operators and delimiters. -/
def punct (c : Nat) : Option TokenType :=
  if c = '('.toNat then some OPENBRACKET
  else if c = ')'.toNat then some CLOSEDBRACKET
  else if c = ';'.toNat then some SEMICOLON
  else if c = '+'.toNat then some PLUS
  else if c = '-'.toNat then some MINUS
  else if c = '*'.toNat then some MULT
  else if c = '<'.toNat then some LESSTHAN
  else if c = '='.toNat then some EQUAL
  else none

/-- A rune that no case of the `switch` recognises. -/
def isOther (c : Nat) : Prop :=
  punct c = none ∧ c ≠ ':'.toNat ∧ c ≠ '/'.toNat ∧ c ≠ ' '.toNat ∧ c ≠ '\r'.toNat
    ∧ c ≠ '\t'.toNat ∧ c ≠ '\n'.toNat ∧ isDigit c = false ∧ isAlpha c = false

/-- The scanner with the cursor moved `n` bytes on. -/
def Scanner.skip (s : Scanner) (n : Nat) : Scanner := { s with current := s.current + n }

/-- The scanner is not at the end, its next rune is `c` and the rune after
that is `n` (rune 0 past the end). -/
def Reads (s : Scanner) (c n : Nat) : Prop :=
  s.current < s.source.length ∧ byteAt s.source s.current = c
    ∧ byteAt s.source (s.current + 1) = n

/-- What is known of an outcome: `P` of the state of a finished run, no
panic, `Q` of the state at which the fuel ran out. -/
def Outcome.Holds (P Q : Scanner → Prop) : Outcome → Prop
  | Outcome.done s => P s
  | Outcome.panic => False
  | Outcome.fuelOut s => Q s

/-- The token category `ty` is what `scanToken` emits for the bytes
`src[a:b]` when it starts at `a`: one clause per emitting case of the
`switch`, with the stopping condition of the greedy loops. -/
def Lexeme (src : List Byte) (a b : Nat) (ty : TokenType) : Prop :=
  (punct (byteAt src a) = some ty ∧ b = a + 1)
  ∨ (byteAt src a = ':'.toNat ∧ byteAt src (a + 1) = '='.toNat ∧ b = a + 2 ∧ ty = ASSIGN)
  ∨ (byteAt src a = ':'.toNat ∧ byteAt src (a + 1) ≠ '='.toNat ∧ b = a + 1 ∧ ty = ILLEGAL)
  ∨ (byteAt src a = '/'.toNat ∧ byteAt src (a + 1) ≠ '*'.toNat ∧ b = a + 1 ∧ ty = DIV)
  ∨ (isDigit (byteAt src a) = true
      ∧ (∀ j, a ≤ j → j < b → isDigit (byteAt src j) = true)
      ∧ isDigit (byteAt src b) = false ∧ ty = NUMBER)
  ∨ (isAlpha (byteAt src a) = true ∧ isDigit (byteAt src a) = false
      ∧ (∀ j, a < j → j < b → isAlphaNumeric (byteAt src j) = true)
      ∧ isAlphaNumeric (byteAt src b) = false
      ∧ ty = (keywords (slice src a b)).getD IDENTIFIER)
  ∨ (isOther (byteAt src a) ∧ b = a + 1 ∧ ty = ILLEGAL)

/-- One call of `scanToken` from `s` to `s'`: the cursor moved forward inside
the source and at most one token was appended, whose text is the bytes
consumed and whose line is the line at the start of the call. -/
def Stepped (s s' : Scanner) : Prop :=
  s'.source = s.source ∧ s'.start = s.start ∧ s.current < s'.current
    ∧ s'.current ≤ s.source.length
    ∧ (s'.tokens = s.tokens
      ∨ ∃ ty, s'.tokens = s.tokens ++ [⟨ty, slice s.source s.current s'.current, s.line⟩]
          ∧ s'.line = s.line ∧ Lexeme s.source s.current s'.current ty)

/-- The token `t` with its line moved `k` lines down. -/
def bump (k : Nat) (t : Token) : Token := { t with Line := t.Line + k }

/-- The scanner `s` seen after a prefix `p` of the source that has already
been scanned: `p` is put before the source, the tokens `T` before the tokens,
and `p` contained `k` newlines. -/
def Scanner.shift (p : List Byte) (T : List Token) (k : Nat) (s : Scanner) : Scanner :=
  { source := p ++ s.source, tokens := T ++ s.tokens.map (bump k),
    start := p.length + s.start, current := p.length + s.current, line := s.line + k }

/-- Lift of `Scanner.shift` to the state an outcome carries. -/
def Outcome.shift (p : List Byte) (T : List Token) (k : Nat) : Outcome → Outcome
  | Outcome.done s => Outcome.done (s.shift p T k)
  | Outcome.panic => Outcome.panic
  | Outcome.fuelOut s => Outcome.fuelOut (s.shift p T k)

/-- An ASCII letter, `A-Z` or `a-z`. -/
def isAsciiLetter (b : Byte) : Bool :=
  (decide ('A'.toNat ≤ b.val) && decide (b.val ≤ 'Z'.toNat))
    || (decide ('a'.toNat ≤ b.val) && decide (b.val ≤ 'z'.toNat))

/-- An ASCII decimal digit, `0-9`. -/
def isAsciiDigit (b : Byte) : Bool := decide ('0'.toNat ≤ b.val) && decide (b.val ≤ '9'.toNat)

instance (c : Nat) : Decidable (isOther c) := by unfold isOther; infer_instance

/-- The category of a word (a letter followed by letters and digits): the
keyword category for the seven reserved spellings, `IDENTIFIER` otherwise. -/
def wordCategory (w : List Byte) : TokenType :=
  if w = ascii "if" then IF
  else if w = ascii "then" then THEN
  else if w = ascii "end" then END
  else if w = ascii "repeat" then REPEAT
  else if w = ascii "until" then UNTIL
  else if w = ascii "read" then READ
  else if w = ascii "write" then WRITE
  else IDENTIFIER

/-- The seven keyword categories. -/
def keywordTypes : List TokenType := [IF, THEN, END, REPEAT, UNTIL, READ, WRITE]

/-- The seven reserved spellings. -/
def keywordSpellings : List (List Byte) :=
  [ascii "if", ascii "then", ascii "end", ascii "repeat", ascii "until", ascii "read",
    ascii "write"]

/-- What C7 says of one token. -/
def KeywordOk (t : Token) : Prop :=
  (t.Typ ∈ keywordTypes ↔ t.Value ∈ keywordSpellings)
    ∧ (t.Value ∈ keywordSpellings → keywords t.Value = some t.Typ)

/-- The categories of the eight one-character operators and delimiters. -/
def punctTypes : List TokenType :=
  [OPENBRACKET, CLOSEDBRACKET, SEMICOLON, PLUS, MINUS, MULT, LESSTHAN, EQUAL]

/-- The UTF-8 bytes of a text: how a Go string literal is laid out in
memory. -/
def utf8 (s : String) : List Byte :=
  (s.toList.flatMap String.utf8EncodeChar).map (fun b => b.val)

/-- The number of newline bytes in a text. -/
def newlines (l : List Byte) : Nat := l.count (byte '\n')

/-- The bytes `a`, `b` occur in a row somewhere in the text. -/
def hasPair (a b : Byte) : List Byte → Bool
  | x :: y :: rest => (decide (x = a) && decide (y = b)) || hasPair a b (y :: rest)
  | _ => false

/-- The two bytes at index `j` close a comment: `*` then `/`. -/
def IsCloser (src : List Byte) (j : Nat) : Prop :=
  byteAt src j = '*'.toNat ∧ byteAt src (j + 1) = '/'.toNat

/-- Where `comment`, entered at index `a`, leaves the cursor: just past the
first `*/` from `a` on, or at the end of the source when there is none. -/
def CommentEnd (src : List Byte) (a b : Nat) : Prop :=
  (∃ e, a ≤ e ∧ b = e + 2 ∧ IsCloser src e ∧ ∀ j, a ≤ j → j < e → ¬ IsCloser src j)
  ∨ (b = src.length ∧ ∀ j, a ≤ j → ¬ IsCloser src j)

/-- A space, carriage return, tab or newline. -/
def isBlank (c : Nat) : Bool :=
  decide (c = ' '.toNat) || decide (c = '\r'.toNat) || decide (c = '\t'.toNat)
    || decide (c = '\n'.toNat)

/-- A call of `scanToken` that starts at index `a`, ends at `b` and emits no
token: it consumed one blank byte, or a comment opened by `/*` at `a`. -/
def Silent (src : List Byte) (a b : Nat) : Prop :=
  (b = a + 1 ∧ isBlank (byteAt src a) = true)
  ∨ (byteAt src a = '/'.toNat ∧ byteAt src (a + 1) = '*'.toNat ∧ CommentEnd src (a + 2) b)

/-- The text the driver writes for a token (`main.go`): the token's value,
replaced by `"newline"` when `strings.Contains(value, "\n")`. -/
def driverValue (t : Token) : List Byte :=
  if byte '\n' ∈ t.Value then ascii "newline" else t.Value

/-- The line counter is one more than the number of newlines before the
cursor. -/
def LineOk (s : Scanner) : Prop :=
  s.line = 1 + newlines (s.source.take s.current)

/-! ## The program state shared by sessions

Every statement of `scanner.go` reads or writes fields of its receiver and
local variables only, except for the one read of the package-level variable
`keywords` in `identifier`.  The methods are therefore functions of the struct
behind the receiver and of the value of `keywords`; a `World` holds that
variable and every struct allocated so far, and `NewScannerW`, `ScanTokensW`
are the two exported calls as steps on a `World`. -/

/-- The entries of the map literal that initialises the package-level
variable `keywords` of `token.go`. -/
def keywordTable : List (List Byte × TokenType) :=
  [(ascii "if", IF), (ascii "then", THEN), (ascii "end", END), (ascii "repeat", REPEAT),
    (ascii "until", UNTIL), (ascii "read", READ), (ascii "write", WRITE)]

/-- Go map lookup `table[text]` with the comma-ok result: the value stored
under the key, `none` when the key is absent. -/
def lookupKeyword : List (List Byte × TokenType) → List Byte → Option TokenType
  | [], _ => none
  | (k, v) :: rest, text => if text = k then some v else lookupKeyword rest text

/-- Go `identifier`, reading the package-level variable `keywords` from the
program state: `kw` is the value of that variable when the method runs. -/
def identifierK (kw : List (List Byte × TokenType)) (fuel : Nat) (s : Scanner) : Outcome :=
  match identifierLoop fuel s with
  | Outcome.done s1 =>
    if s1.start ≤ s1.current ∧ s1.current ≤ s1.source.length then
      let text := (s1.source.drop s1.start).take (s1.current - s1.start)
      match lookupKeyword kw text with
      | some tokenType => Outcome.ofOption (addToken s1 tokenType)
      | none => Outcome.ofOption (addToken s1 IDENTIFIER)
    else Outcome.panic
  | o => o

/-- Go `scanToken` with the variable `keywords` read from the program
state. -/
def scanTokenK (kw : List (List Byte × TokenType)) (fuel : Nat) (s : Scanner) : Outcome :=
  match advance s with
  | none => Outcome.panic
  | some (char, s) =>
    if char = '('.toNat then Outcome.ofOption (addToken s OPENBRACKET)
    else if char = ')'.toNat then Outcome.ofOption (addToken s CLOSEDBRACKET)
    else if char = ';'.toNat then Outcome.ofOption (addToken s SEMICOLON)
    else if char = '+'.toNat then Outcome.ofOption (addToken s PLUS)
    else if char = '-'.toNat then Outcome.ofOption (addToken s MINUS)
    else if char = '*'.toNat then Outcome.ofOption (addToken s MULT)
    else if char = '<'.toNat then Outcome.ofOption (addToken s LESSTHAN)
    else if char = '='.toNat then Outcome.ofOption (addToken s EQUAL)
    else if char = ':'.toNat then
      match matchRune s '='.toNat with
      | none => Outcome.panic
      | some (true, s1) => Outcome.ofOption (addToken s1 ASSIGN)
      | some (false, s1) => Outcome.ofOption (addToken s1 ILLEGAL)
    else if char = '/'.toNat then
      match matchRune s '*'.toNat with
      | none => Outcome.panic
      | some (true, s1) => comment fuel s1
      | some (false, s1) => Outcome.ofOption (addToken s1 DIV)
    else if char = ' '.toNat ∨ char = '\r'.toNat ∨ char = '\t'.toNat then Outcome.done s
    else if char = '\n'.toNat then Outcome.done { s with line := s.line + 1 }
    else if isDigit char then number fuel s
    else if isAlpha char then identifierK kw fuel s
    else Outcome.ofOption (addToken s ILLEGAL)

/-- The loop of `ScanTokens` with the variable `keywords` read from the
program state. -/
def scanLoopK (kw : List (List Byte × TokenType)) : Nat → Scanner → Outcome
  | 0, s => Outcome.fuelOut s
  | fuel + 1, s =>
    if isAtEnd s then Outcome.done s
    else
      match scanTokenK kw fuel { s with start := s.current } with
      | Outcome.done s1 => scanLoopK kw fuel s1
      | o => o

/-- Go `ScanTokens` on the struct behind the receiver, with the variable
`keywords` read from the program state. -/
def ScanTokensK (kw : List (List Byte × TokenType)) (fuel : Nat) (s : Scanner) : Outcome :=
  match scanLoopK kw fuel s with
  | Outcome.done s1 => Outcome.done { s1 with tokens := s1.tokens ++ [eofToken s1.line] }
  | o => o

/-- The state of the Go program that outlives a call: the package-level
variable `keywords` and the `Scanner` structs allocated so far.  A `*Scanner`
is an index into `heap`. -/
structure World where
  keywords : List (List Byte × TokenType)
  heap : List Scanner
  deriving DecidableEq, Repr

/-- The program state after package initialisation: `keywords` holds its map
literal and no scanner has been allocated. -/
def initialWorld : World := { keywords := keywordTable, heap := [] }

/-- Go `NewScanner` as a step of the program: `&Scanner{...}` allocates a new
struct and returns the pointer to it. -/
def NewScannerW (w : World) (source : List Byte) : Nat × World :=
  (w.heap.length, { w with heap := w.heap ++ [NewScanner source] })

/-- Go `ScanTokens` as a step of the program, called on the pointer `p`: the
methods read and write the struct behind `p` and read `keywords`; the result
is the returned slice, `none` on a nil or dangling pointer, on a panic or when
the fuel runs out (the state is then left as it was). -/
def ScanTokensW (fuel : Nat) (w : World) (p : Nat) : Option (List Token) × World :=
  match w.heap[p]? with
  | none => (none, w)
  | some s =>
    match ScanTokensK w.keywords fuel s with
    | Outcome.done s1 => (some s1.tokens, { w with heap := w.heap.set p s1 })
    | _ => (none, w)

/-- One session `NewScanner(source).ScanTokens()` run in the program state
`w`: the returned slice and the program state it leaves behind. -/
def sessionW (fuel : Nat) (w : World) (source : List Byte) : Option (List Token) × World :=
  ScanTokensW fuel (NewScannerW w source).2 (NewScannerW w source).1

/-- The program states that calls of `NewScanner` and `ScanTokens`, in any
number and order, on any sources and any of the scanners, lead to. -/
inductive Reachable : World → Prop
  | start : Reachable initialWorld
  | newScanner (w : World) (source : List Byte) :
      Reachable w → Reachable (NewScannerW w source).2
  | scanTokens (fuel : Nat) (w : World) (p : Nat) :
      Reachable w → Reachable (ScanTokensW fuel w p).2

/-- The slice that a finished call of `ScanTokens` returns, `none` for a
panic or a run out of fuel. -/
def Outcome.returned : Outcome → Option (List Token)
  | Outcome.done s => some s.tokens
  | _ => none

/-- A program state with a history: a session on `"x := 10;"`, a session on
`"if x"`, and then a second call of `ScanTokens` on the first scanner. -/
def usedWorld : World :=
  (ScanTokensW 30 (sessionW 10 (sessionW 9 initialWorld (ascii "x := 10;")).2 (ascii "if x")).2
    0).2

/-! ## Basic facts -/

theorem byteAt_of_lt {src : List Byte} {i : Nat} (h : i < src.length) :
    byteAt src i = (src[i]).val := by
  simp [byteAt, List.getElem?_eq_getElem h]

theorem byteAt_of_ge {src : List Byte} {i : Nat} (h : src.length ≤ i) : byteAt src i = 0 := by
  simp [byteAt, List.getElem?_eq_none h]

theorem byteAt_lt (src : List Byte) (i : Nat) : byteAt src i < 256 := by
  unfold byteAt
  split
  · exact Fin.isLt _
  · decide

theorem lt_of_byteAt_ne_zero {src : List Byte} {i : Nat} (h : byteAt src i ≠ 0) :
    i < src.length := by
  by_contra hge
  exact h (byteAt_of_ge (Nat.le_of_not_lt hge))

theorem peek_eq (s : Scanner) : peek s = some (byteAt s.source s.current) := by
  unfold peek isAtEnd byteAt
  by_cases h : s.current < s.source.length
  · simp [List.getElem?_eq_getElem h, Nat.not_le.mpr h]
  · have h2 : s.source.length ≤ s.current := Nat.le_of_not_lt h
    simp [List.getElem?_eq_none h2, h2]

theorem peekNext_eq (s : Scanner) : peekNext s = some (byteAt s.source (s.current + 1)) := by
  unfold peekNext byteAt
  by_cases h : s.current + 1 < s.source.length
  · simp [List.getElem?_eq_getElem h, Nat.not_le.mpr h]
  · have h2 : s.source.length ≤ s.current + 1 := Nat.le_of_not_lt h
    simp [List.getElem?_eq_none h2, h2]

theorem advance_eq (s : Scanner) :
    advance s = if s.current < s.source.length
      then some (byteAt s.source s.current, { s with current := s.current + 1 })
      else none := by
  unfold advance byteAt
  by_cases h : s.current < s.source.length
  · simp [List.getElem?_eq_getElem h, h]
  · have h2 : s.source.length ≤ s.current := Nat.le_of_not_lt h
    simp [List.getElem?_eq_none h2, h]

theorem matchRune_eq (s : Scanner) (e : Nat) :
    matchRune s e = some (if s.current < s.source.length ∧ byteAt s.source s.current = e
      then (true, { s with current := s.current + 1 }) else (false, s)) := by
  unfold matchRune isAtEnd byteAt
  by_cases h : s.current < s.source.length
  · by_cases h3 : (s.source[s.current]).val = e
    · simp [List.getElem?_eq_getElem h, h, Nat.not_le.mpr h, h3]
    · simp [List.getElem?_eq_getElem h, h, Nat.not_le.mpr h, h3]
  · have h2 : s.source.length ≤ s.current := Nat.le_of_not_lt h
    simp [h, h2]

theorem addToken_eq (s : Scanner) (ty : TokenType) :
    addToken s ty = if s.start ≤ s.current ∧ s.current ≤ s.source.length
      then some { s with tokens := s.tokens ++ [⟨ty, slice s.source s.start s.current, s.line⟩] }
      else none := rfl

theorem isDigit_zero : isDigit 0 = false := by decide

theorem isAlphaNumeric_zero : isAlphaNumeric 0 = false := by decide

theorem lt_of_isDigit {src : List Byte} {i : Nat} (h : isDigit (byteAt src i) = true) :
    i < src.length :=
  lt_of_byteAt_ne_zero (fun h0 => by rw [h0, isDigit_zero] at h; exact Bool.noConfusion h)

theorem lt_of_isAlphaNumeric {src : List Byte} {i : Nat}
    (h : isAlphaNumeric (byteAt src i) = true) : i < src.length :=
  lt_of_byteAt_ne_zero (fun h0 => by rw [h0, isAlphaNumeric_zero] at h; exact Bool.noConfusion h)

/-! ## One unfolding of each loop -/

theorem comment_succ (f : Nat) (s : Scanner) :
    comment (f + 1) s =
      if s.source.length ≤ s.current then Outcome.done s
      else if byteAt s.source s.current = '*'.toNat ∧ byteAt s.source (s.current + 1) = '/'.toNat
        then Outcome.done { s with current := s.current + 2 }
      else comment f { s with
        current := s.current + 1,
        line := if byteAt s.source s.current = '\n'.toNat then s.line + 1 else s.line } := by
  rw [comment]
  by_cases h : s.source.length ≤ s.current
  · simp [isAtEnd, h]
  · have hlt : s.current < s.source.length := Nat.lt_of_not_le h
    by_cases hs : byteAt s.source s.current = 42
    · by_cases hn : byteAt s.source (s.current + 1) = 47
      · have h1 : s.current + 1 < s.source.length :=
          lt_of_byteAt_ne_zero (by rw [hn]; decide)
        simp [isAtEnd, h, peek_eq, peekNext_eq, advance_eq, hs, hn, hlt, h1]
      · simp [isAtEnd, h, peek_eq, peekNext_eq, advance_eq, hs, hn, hlt]
    · by_cases hl : byteAt s.source s.current = 10
      · have hs2 : ¬ (10 = 42) := by decide
        simp [isAtEnd, h, peek_eq, advance_eq, hl, hlt]
      · simp [isAtEnd, h, peek_eq, advance_eq, hs, hl, hlt]

theorem numberLoop_succ (f : Nat) (s : Scanner) :
    numberLoop (f + 1) s =
      if isDigit (byteAt s.source s.current) = true
        then numberLoop f { s with current := s.current + 1 }
      else Outcome.done s := by
  rw [numberLoop]
  by_cases h : isDigit (byteAt s.source s.current) = true
  · simp [peek_eq, advance_eq, h, lt_of_isDigit h]
  · simp [peek_eq, h]

theorem identifierLoop_succ (f : Nat) (s : Scanner) :
    identifierLoop (f + 1) s =
      if isAlphaNumeric (byteAt s.source s.current) = true
        then identifierLoop f { s with current := s.current + 1 }
      else Outcome.done s := by
  rw [identifierLoop]
  by_cases h : isAlphaNumeric (byteAt s.source s.current) = true
  · simp [peek_eq, advance_eq, h, lt_of_isAlphaNumeric h]
  · simp [peek_eq, h]

/-! ## More fuel does not change a finished run -/

theorem comment_mono : ∀ (f : Nat) (s s' : Scanner), comment f s = Outcome.done s' →
    ∀ f', f ≤ f' → comment f' s = Outcome.done s'
  | 0, s, s', h, _, _ => by simp [comment] at h
  | f + 1, s, s', h, 0, hle => by omega
  | f + 1, s, s', h, f' + 1, hle => by
    rw [comment_succ] at h ⊢
    split_ifs at h ⊢
    all_goals first | exact h | exact comment_mono f _ _ h f' (by omega)

theorem numberLoop_mono : ∀ (f : Nat) (s s' : Scanner), numberLoop f s = Outcome.done s' →
    ∀ f', f ≤ f' → numberLoop f' s = Outcome.done s'
  | 0, s, s', h, _, _ => by simp [numberLoop] at h
  | f + 1, s, s', h, 0, hle => by omega
  | f + 1, s, s', h, f' + 1, hle => by
    rw [numberLoop_succ] at h ⊢
    split_ifs at h ⊢
    · exact numberLoop_mono f _ _ h f' (by omega)
    · exact h

theorem identifierLoop_mono : ∀ (f : Nat) (s s' : Scanner),
    identifierLoop f s = Outcome.done s' →
    ∀ f', f ≤ f' → identifierLoop f' s = Outcome.done s'
  | 0, s, s', h, _, _ => by simp [identifierLoop] at h
  | f + 1, s, s', h, 0, hle => by omega
  | f + 1, s, s', h, f' + 1, hle => by
    rw [identifierLoop_succ] at h ⊢
    split_ifs at h ⊢
    · exact identifierLoop_mono f _ _ h f' (by omega)
    · exact h

theorem number_mono (f : Nat) (s s' : Scanner) (h : number f s = Outcome.done s')
    (f' : Nat) (hle : f ≤ f') : number f' s = Outcome.done s' := by
  unfold number at h ⊢
  cases hl : numberLoop f s with
  | done s1 => rw [numberLoop_mono f s s1 hl f' hle]; rw [hl] at h; exact h
  | panic => rw [hl] at h; simp at h
  | fuelOut s1 => rw [hl] at h; simp at h

theorem identifier_mono (f : Nat) (s s' : Scanner) (h : identifier f s = Outcome.done s')
    (f' : Nat) (hle : f ≤ f') : identifier f' s = Outcome.done s' := by
  unfold identifier at h ⊢
  cases hl : identifierLoop f s with
  | done s1 => rw [identifierLoop_mono f s s1 hl f' hle]; rw [hl] at h; exact h
  | panic => rw [hl] at h; simp at h
  | fuelOut s1 => rw [hl] at h; simp at h

/-- The body of the `switch` of `scanToken`, after the `advance`. -/
theorem scanToken_eq (f : Nat) (s : Scanner) (h : s.current < s.source.length) :
    scanToken f s =
      (if byteAt s.source s.current = 40 then
        Outcome.ofOption (addToken { s with current := s.current + 1 } OPENBRACKET)
      else if byteAt s.source s.current = 41 then
        Outcome.ofOption (addToken { s with current := s.current + 1 } CLOSEDBRACKET)
      else if byteAt s.source s.current = 59 then
        Outcome.ofOption (addToken { s with current := s.current + 1 } SEMICOLON)
      else if byteAt s.source s.current = 43 then
        Outcome.ofOption (addToken { s with current := s.current + 1 } PLUS)
      else if byteAt s.source s.current = 45 then
        Outcome.ofOption (addToken { s with current := s.current + 1 } MINUS)
      else if byteAt s.source s.current = 42 then
        Outcome.ofOption (addToken { s with current := s.current + 1 } MULT)
      else if byteAt s.source s.current = 60 then
        Outcome.ofOption (addToken { s with current := s.current + 1 } LESSTHAN)
      else if byteAt s.source s.current = 61 then
        Outcome.ofOption (addToken { s with current := s.current + 1 } EQUAL)
      else if byteAt s.source s.current = 58 then
        if byteAt s.source (s.current + 1) = 61 then
          Outcome.ofOption (addToken { s with current := s.current + 2 } ASSIGN)
        else Outcome.ofOption (addToken { s with current := s.current + 1 } ILLEGAL)
      else if byteAt s.source s.current = 47 then
        if byteAt s.source (s.current + 1) = 42 then
          comment f { s with current := s.current + 2 }
        else Outcome.ofOption (addToken { s with current := s.current + 1 } DIV)
      else if byteAt s.source s.current = 32 ∨ byteAt s.source s.current = 13
          ∨ byteAt s.source s.current = 9 then
        Outcome.done { s with current := s.current + 1 }
      else if byteAt s.source s.current = 10 then
        Outcome.done { s with current := s.current + 1, line := s.line + 1 }
      else if isDigit (byteAt s.source s.current) = true then
        number f { s with current := s.current + 1 }
      else if isAlpha (byteAt s.source s.current) = true then
        identifier f { s with current := s.current + 1 }
      else Outcome.ofOption (addToken { s with current := s.current + 1 } ILLEGAL)) := by
  unfold scanToken
  rw [advance_eq, if_pos h]
  simp only [matchRune_eq]
  by_cases h1 : byteAt s.source (s.current + 1) = 61
  · have hl : s.current + 1 < s.source.length := lt_of_byteAt_ne_zero (by rw [h1]; decide)
    have h2 : ¬ byteAt s.source (s.current + 1) = 42 := by rw [h1]; decide
    simp [h1, hl, h2]
  · by_cases h2 : byteAt s.source (s.current + 1) = 42
    · have hl : s.current + 1 < s.source.length := lt_of_byteAt_ne_zero (by rw [h2]; decide)
      simp [h1, hl, h2]
    · simp [h1, h2]


theorem scanToken_of_ge (f : Nat) (s : Scanner) (h : s.source.length ≤ s.current) :
    scanToken f s = Outcome.panic := by
  unfold scanToken
  rw [advance_eq, if_neg (Nat.not_lt.mpr h)]

theorem scanToken_cases (c n : Nat) :
    (∃ ty, punct c = some ty
        ∧ ∀ f s, Reads s c n → scanToken f s = Outcome.ofOption (addToken (s.skip 1) ty))
    ∨ (c = ':'.toNat ∧ n = '='.toNat
        ∧ ∀ f s, Reads s c n → scanToken f s = Outcome.ofOption (addToken (s.skip 2) ASSIGN))
    ∨ (c = ':'.toNat ∧ n ≠ '='.toNat
        ∧ ∀ f s, Reads s c n → scanToken f s = Outcome.ofOption (addToken (s.skip 1) ILLEGAL))
    ∨ (c = '/'.toNat ∧ n = '*'.toNat
        ∧ ∀ f s, Reads s c n → scanToken f s = comment f (s.skip 2))
    ∨ (c = '/'.toNat ∧ n ≠ '*'.toNat
        ∧ ∀ f s, Reads s c n → scanToken f s = Outcome.ofOption (addToken (s.skip 1) DIV))
    ∨ ((c = ' '.toNat ∨ c = '\r'.toNat ∨ c = '\t'.toNat)
        ∧ ∀ f s, Reads s c n → scanToken f s = Outcome.done (s.skip 1))
    ∨ (c = '\n'.toNat
        ∧ ∀ f s, Reads s c n → scanToken f s = Outcome.done { s.skip 1 with line := s.line + 1 })
    ∨ (isDigit c = true
        ∧ ∀ f s, Reads s c n → scanToken f s = number f (s.skip 1))
    ∨ (isAlpha c = true ∧ isDigit c = false
        ∧ ∀ f s, Reads s c n → scanToken f s = identifier f (s.skip 1))
    ∨ (isOther c
        ∧ ∀ f s, Reads s c n → scanToken f s = Outcome.ofOption (addToken (s.skip 1) ILLEGAL)) := by
  have key : ∀ f s, Reads s c n → scanToken f s = _ := fun f s hr => by
    rw [scanToken_eq f s hr.1, hr.2.1, hr.2.2]
  simp only [Scanner.skip]
  by_cases c1 : c = 40
  · exact Or.inl ⟨OPENBRACKET, by simp [punct, c1], fun f s hr => by rw [key f s hr, if_pos c1]⟩
  by_cases c2 : c = 41
  · exact Or.inl ⟨CLOSEDBRACKET, by simp [punct, c2], fun f s hr => by rw [key f s hr]; simp [c2]⟩
  by_cases c3 : c = 59
  · exact Or.inl ⟨SEMICOLON, by simp [punct, c3], fun f s hr => by rw [key f s hr]; simp [c3]⟩
  by_cases c4 : c = 43
  · exact Or.inl ⟨PLUS, by simp [punct, c4], fun f s hr => by rw [key f s hr]; simp [c4]⟩
  by_cases c5 : c = 45
  · exact Or.inl ⟨MINUS, by simp [punct, c5], fun f s hr => by rw [key f s hr]; simp [c5]⟩
  by_cases c6 : c = 42
  · exact Or.inl ⟨MULT, by simp [punct, c6], fun f s hr => by rw [key f s hr]; simp [c6]⟩
  by_cases c7 : c = 60
  · exact Or.inl ⟨LESSTHAN, by simp [punct, c7], fun f s hr => by rw [key f s hr]; simp [c7]⟩
  by_cases c8 : c = 61
  · exact Or.inl ⟨EQUAL, by simp [punct, c8], fun f s hr => by rw [key f s hr]; simp [c8]⟩
  have hp : punct c = none := by simp [punct, c1, c2, c3, c4, c5, c6, c7, c8]
  by_cases c9 : c = 58
  · by_cases n1 : n = 61
    · exact Or.inr (Or.inl ⟨c9, n1, fun f s hr => by rw [key f s hr]; simp [c9, n1]⟩)
    · exact Or.inr (Or.inr (Or.inl ⟨c9, n1, fun f s hr => by rw [key f s hr]; simp [c9, n1]⟩))
  by_cases c10 : c = 47
  · by_cases n2 : n = 42
    · exact Or.inr (Or.inr (Or.inr (Or.inl
        ⟨c10, n2, fun f s hr => by rw [key f s hr]; simp [c10, n2]⟩)))
    · exact Or.inr (Or.inr (Or.inr (Or.inr (Or.inl
        ⟨c10, n2, fun f s hr => by rw [key f s hr]; simp [c10, n2]⟩))))
  by_cases c11 : c = 32 ∨ c = 13 ∨ c = 9
  · exact Or.inr (Or.inr (Or.inr (Or.inr (Or.inr (Or.inl
      ⟨c11, fun f s hr => by
        rw [key f s hr]; simp [c1, c2, c3, c4, c5, c6, c7, c8, c9, c10, c11]⟩)))))
  by_cases c12 : c = 10
  · exact Or.inr (Or.inr (Or.inr (Or.inr (Or.inr (Or.inr (Or.inl
      ⟨c12, fun f s hr => by rw [key f s hr]; simp [c12]⟩))))))
  by_cases c13 : isDigit c = true
  · exact Or.inr (Or.inr (Or.inr (Or.inr (Or.inr (Or.inr (Or.inr (Or.inl
      ⟨c13, fun f s hr => by
        rw [key f s hr]; simp [c1, c2, c3, c4, c5, c6, c7, c8, c9, c10, c11, c12, c13]⟩)))))))
  by_cases c14 : isAlpha c = true
  · exact Or.inr (Or.inr (Or.inr (Or.inr (Or.inr (Or.inr (Or.inr (Or.inr (Or.inl
      ⟨c14, by simpa using c13, fun f s hr => by
        rw [key f s hr]
        simp [c1, c2, c3, c4, c5, c6, c7, c8, c9, c10, c11, c12, c13, c14]⟩))))))))
  · refine Or.inr (Or.inr (Or.inr (Or.inr (Or.inr (Or.inr (Or.inr (Or.inr (Or.inr
      ⟨?_, fun f s hr => by
        rw [key f s hr]
        simp [c1, c2, c3, c4, c5, c6, c7, c8, c9, c10, c11, c12, c13, c14]⟩))))))))
    have h11 : ¬ c = 32 ∧ ¬ c = 13 ∧ ¬ c = 9 := by
      refine ⟨fun e => c11 (Or.inl e), fun e => c11 (Or.inr (Or.inl e)),
        fun e => c11 (Or.inr (Or.inr e))⟩
    exact ⟨hp, c9, c10, h11.1, h11.2.1, h11.2.2, c12, by simpa using c13, by simpa using c14⟩

theorem reads_self (s : Scanner) (h : s.current < s.source.length) :
    Reads s (byteAt s.source s.current) (byteAt s.source (s.current + 1)) :=
  ⟨h, rfl, rfl⟩

theorem scanToken_mono (f : Nat) (s s' : Scanner) (h : scanToken f s = Outcome.done s')
    (f' : Nat) (hle : f ≤ f') : scanToken f' s = Outcome.done s' := by
  by_cases hlt : s.current < s.source.length
  · have hr := reads_self s hlt
    rcases scanToken_cases (byteAt s.source s.current) (byteAt s.source (s.current + 1)) with
      ⟨_, _, e⟩ | ⟨_, _, e⟩ | ⟨_, _, e⟩ | ⟨_, _, e⟩ | ⟨_, _, e⟩ | ⟨_, e⟩ | ⟨_, e⟩ | ⟨_, e⟩
        | ⟨_, _, e⟩ | ⟨_, e⟩
    all_goals rw [e f s hr] at h; rw [e f' s hr]
    any_goals exact h
    · exact comment_mono f _ _ h f' hle
    · exact number_mono f _ _ h f' hle
    · exact identifier_mono f _ _ h f' hle
  · rw [scanToken_of_ge f s (Nat.le_of_not_lt hlt)] at h
    exact Outcome.noConfusion h

theorem scanLoop_mono : ∀ (f : Nat) (s s' : Scanner), scanLoop f s = Outcome.done s' →
    ∀ f', f ≤ f' → scanLoop f' s = Outcome.done s'
  | 0, s, s', h, _, _ => by simp [scanLoop] at h
  | f + 1, s, s', h, 0, hle => by omega
  | f + 1, s, s', h, f' + 1, hle => by
    rw [scanLoop] at h ⊢
    split_ifs at h ⊢
    · exact h
    · cases ht : scanToken f { s with start := s.current } with
      | done s1 =>
        rw [ht] at h
        rw [scanToken_mono f _ _ ht f' (by omega)]
        exact scanLoop_mono f _ _ h f' (by omega)
      | panic => rw [ht] at h; simp at h
      | fuelOut s1 => rw [ht] at h; simp at h

theorem ScanTokens_mono (f : Nat) (s s' : Scanner) (h : ScanTokens f s = Outcome.done s')
    (f' : Nat) (hle : f ≤ f') : ScanTokens f' s = Outcome.done s' := by
  unfold ScanTokens at h ⊢
  cases hl : scanLoop f s with
  | done s1 => rw [scanLoop_mono f s s1 hl f' hle]; rw [hl] at h; exact h
  | panic => rw [hl] at h; simp at h
  | fuelOut s1 => rw [hl] at h; simp at h

/-! ## Safety, progress and the fuel that is enough -/

theorem Outcome.Holds.imp {P Q P' Q' : Scanner → Prop} {o : Outcome}
    (h : o.Holds P Q) (hp : ∀ s, P s → P' s) (hq : ∀ s, Q s → Q' s) : o.Holds P' Q' := by
  cases o with
  | done s => exact hp s h
  | panic => exact h
  | fuelOut s => exact hq s h

theorem numberLoop_spec : ∀ (f : Nat) (s : Scanner), s.current ≤ s.source.length →
    (numberLoop f s).Holds
      (fun s' => s' = { s with current := s'.current } ∧ s.current ≤ s'.current
        ∧ s'.current ≤ s.source.length
        ∧ (∀ j, s.current ≤ j → j < s'.current → isDigit (byteAt s.source j) = true)
        ∧ isDigit (byteAt s.source s'.current) = false)
      (fun s' => s' = { s with current := s'.current } ∧ s.current ≤ s'.current
        ∧ s'.current ≤ s.source.length ∧ f ≤ s.source.length - s.current)
  | 0, s, h => by simp [numberLoop, Outcome.Holds, h]
  | f + 1, s, h => by
    rw [numberLoop_succ]
    split_ifs with hd
    · have hlt := lt_of_isDigit hd
      refine (numberLoop_spec f { s with current := s.current + 1 } hlt).imp ?_ ?_
      · rintro s' ⟨h1, h2, h3, h4, h5⟩
        refine ⟨h1, by simp at h2; omega, h3, ?_, h5⟩
        intro j hj1 hj2
        by_cases hj : j = s.current
        · rw [hj]; exact hd
        · exact h4 j (by simp; omega) hj2
      · rintro s' ⟨h1, h2, h3, h4⟩
        simp at h2 h3 h4
        exact ⟨h1, by omega, h3, by omega⟩
    · simp only [Outcome.Holds]
      exact ⟨by simp, Nat.le_refl _, h, fun j h1 h2 => by omega, by simpa using hd⟩

theorem identifierLoop_spec : ∀ (f : Nat) (s : Scanner), s.current ≤ s.source.length →
    (identifierLoop f s).Holds
      (fun s' => s' = { s with current := s'.current } ∧ s.current ≤ s'.current
        ∧ s'.current ≤ s.source.length
        ∧ (∀ j, s.current ≤ j → j < s'.current → isAlphaNumeric (byteAt s.source j) = true)
        ∧ isAlphaNumeric (byteAt s.source s'.current) = false)
      (fun s' => s' = { s with current := s'.current } ∧ s.current ≤ s'.current
        ∧ s'.current ≤ s.source.length ∧ f ≤ s.source.length - s.current)
  | 0, s, h => by simp [identifierLoop, Outcome.Holds, h]
  | f + 1, s, h => by
    rw [identifierLoop_succ]
    split_ifs with hd
    · have hlt := lt_of_isAlphaNumeric hd
      refine (identifierLoop_spec f { s with current := s.current + 1 } hlt).imp ?_ ?_
      · rintro s' ⟨h1, h2, h3, h4, h5⟩
        refine ⟨h1, by simp at h2; omega, h3, ?_, h5⟩
        intro j hj1 hj2
        by_cases hj : j = s.current
        · rw [hj]; exact hd
        · exact h4 j (by simp; omega) hj2
      · rintro s' ⟨h1, h2, h3, h4⟩
        simp at h2 h3 h4
        exact ⟨h1, by omega, h3, by omega⟩
    · simp only [Outcome.Holds]
      exact ⟨by simp, Nat.le_refl _, h, fun j h1 h2 => by omega, by simpa using hd⟩

theorem comment_spec : ∀ (f : Nat) (s : Scanner), s.current ≤ s.source.length →
    (comment f s).Holds
      (fun s' => s'.source = s.source ∧ s'.tokens = s.tokens ∧ s'.start = s.start
        ∧ s.current ≤ s'.current ∧ s'.current ≤ s.source.length)
      (fun s' => s'.source = s.source ∧ s'.tokens = s.tokens ∧ s'.start = s.start
        ∧ s.current ≤ s'.current ∧ s'.current ≤ s.source.length
        ∧ f ≤ s.source.length - s.current)
  | 0, s, h => by simp [comment, Outcome.Holds, h]
  | f + 1, s, h => by
    rw [comment_succ]
    split_ifs with h1 h2
    · simp [Outcome.Holds, h]
    · have hl : s.current + 1 < s.source.length :=
        lt_of_byteAt_ne_zero (by rw [h2.2]; decide)
      simp only [Outcome.Holds]
      exact ⟨by simp, by simp, by simp, by omega, by omega⟩
    all_goals
      have hlt : s.current < s.source.length := Nat.lt_of_not_le h1
      refine (comment_spec f _ (by simpa using hlt)).imp ?_ ?_
      · rintro s' ⟨h3, h4, h5, h6, h7⟩
        simp at h3 h4 h5 h6 h7
        exact ⟨h3, h4, h5, by omega, h7⟩
      · rintro s' ⟨h3, h4, h5, h6, h7, h8⟩
        simp at h3 h4 h5 h6 h7 h8
        exact ⟨h3, h4, h5, by omega, h7, by omega⟩

theorem addToken_skip (s : Scanner) (n : Nat) (ty : TokenType) (hst : s.start = s.current)
    (hn : s.current + n ≤ s.source.length) :
    addToken (s.skip n) ty = some { s.skip n with
      tokens := s.tokens ++ [⟨ty, slice s.source s.current (s.current + n), s.line⟩] } := by
  rw [addToken_eq]
  simp [Scanner.skip, hst, hn]

theorem scanToken_spec (f : Nat) (s : Scanner) (hst : s.start = s.current)
    (hlt : s.current < s.source.length) :
    (scanToken f s).Holds (Stepped s)
      (fun s' => s'.source = s.source ∧ s'.start = s.start ∧ s.current < s'.current
        ∧ s'.current ≤ s.source.length ∧ f < s.source.length - s.current) := by
  have hr := reads_self s hlt
  have h1 : s.current + 1 ≤ s.source.length := hlt
  rcases scanToken_cases (byteAt s.source s.current) (byteAt s.source (s.current + 1)) with
    ⟨ty, hp, e⟩ | ⟨hc, hn, e⟩ | ⟨hc, hn, e⟩ | ⟨hc, hn, e⟩ | ⟨hc, hn, e⟩ | ⟨hc, e⟩ | ⟨hc, e⟩
      | ⟨hc, e⟩ | ⟨hc, hd, e⟩ | ⟨hc, e⟩
  · rw [e f s hr, addToken_skip s 1 ty hst h1]
    refine ⟨rfl, rfl, Nat.lt_succ_self _, h1, Or.inr ⟨ty, rfl, rfl, Or.inl ⟨hp, rfl⟩⟩⟩
  · have h2 : s.current + 2 ≤ s.source.length :=
      lt_of_byteAt_ne_zero (by rw [hn]; decide)
    rw [e f s hr, addToken_skip s 2 _ hst h2]
    refine ⟨rfl, rfl, by simp [Scanner.skip], h2,
      Or.inr ⟨_, rfl, rfl, Or.inr (Or.inl ⟨hc, hn, rfl, rfl⟩)⟩⟩
  · rw [e f s hr, addToken_skip s 1 _ hst h1]
    refine ⟨rfl, rfl, Nat.lt_succ_self _, h1,
      Or.inr ⟨_, rfl, rfl, Or.inr (Or.inr (Or.inl ⟨hc, hn, rfl, rfl⟩))⟩⟩
  · have h2 : s.current + 2 ≤ s.source.length :=
      lt_of_byteAt_ne_zero (by rw [hn]; decide)
    rw [e f s hr]
    refine (comment_spec f (s.skip 2) h2).imp ?_ ?_
    · rintro s' ⟨a1, a2, a3, a4, a5⟩
      simp [Scanner.skip] at a1 a2 a3 a4 a5
      exact ⟨a1, a3, by omega, a5, Or.inl a2⟩
    · rintro s' ⟨a1, a2, a3, a4, a5, a6⟩
      simp [Scanner.skip] at a1 a2 a3 a4 a5 a6
      exact ⟨a1, a3, by omega, a5, by omega⟩
  · rw [e f s hr, addToken_skip s 1 _ hst h1]
    refine ⟨rfl, rfl, Nat.lt_succ_self _, h1,
      Or.inr ⟨_, rfl, rfl, Or.inr (Or.inr (Or.inr (Or.inl ⟨hc, hn, rfl, rfl⟩)))⟩⟩
  · rw [e f s hr]
    exact ⟨rfl, rfl, Nat.lt_succ_self _, h1, Or.inl rfl⟩
  · rw [e f s hr]
    exact ⟨rfl, rfl, Nat.lt_succ_self _, h1, Or.inl rfl⟩
  · rw [e f s hr]
    unfold number
    have hs := numberLoop_spec f (s.skip 1) h1
    cases hl : numberLoop f (s.skip 1) with
    | panic => rw [hl] at hs; exact hs.elim
    | fuelOut s1 =>
      rw [hl] at hs
      obtain ⟨a1, a2, a3, a4⟩ := hs
      simp [Scanner.skip] at a2 a3 a4
      simp only [Outcome.Holds]
      rw [a1]
      simp [Scanner.skip]
      omega
    | done s1 =>
      rw [hl] at hs
      obtain ⟨a1, a2, a3, a4, a5⟩ := hs
      simp [Scanner.skip] at a2 a3 a4 a5
      simp only []
      rw [a1, addToken_eq]
      simp only [Scanner.skip, hst]
      rw [if_pos ⟨by omega, a3⟩]
      refine ⟨rfl, hst.symm ▸ rfl, by simp; omega, a3, Or.inr ⟨NUMBER, rfl, rfl, ?_⟩⟩
      refine Or.inr (Or.inr (Or.inr (Or.inr (Or.inl ⟨hc, ?_, a5, rfl⟩))))
      intro j hj1 hj2
      by_cases hj : j = s.current
      · rw [hj]; exact hc
      · exact a4 j (by omega) hj2
  · rw [e f s hr]
    unfold identifier
    have hs := identifierLoop_spec f (s.skip 1) h1
    cases hl : identifierLoop f (s.skip 1) with
    | panic => rw [hl] at hs; exact hs.elim
    | fuelOut s1 =>
      rw [hl] at hs
      obtain ⟨a1, a2, a3, a4⟩ := hs
      simp [Scanner.skip] at a2 a3 a4
      simp only [Outcome.Holds]
      rw [a1]
      simp [Scanner.skip]
      omega
    | done s1 =>
      rw [hl] at hs
      obtain ⟨a1, a2, a3, a4, a5⟩ := hs
      simp [Scanner.skip] at a2 a3 a4 a5
      simp only []
      rw [a1]
      simp only [Scanner.skip, hst]
      rw [if_pos ⟨by omega, a3⟩]
      have hlex : Lexeme s.source s.current s1.current
          ((keywords (slice s.source s.current s1.current)).getD IDENTIFIER) :=
        Or.inr (Or.inr (Or.inr (Or.inr (Or.inr (Or.inl
          ⟨hc, hd, fun j hj1 hj2 => a4 j (by omega) hj2, a5, rfl⟩)))))
      cases hk : keywords (List.take (s1.current - s.current) (List.drop s.current s.source)) with
      | none =>
        simp only []
        rw [addToken_eq]
        simp only []
        rw [if_pos ⟨by omega, a3⟩]
        refine ⟨rfl, hst.symm ▸ rfl, by simp; omega, a3, Or.inr ⟨IDENTIFIER, rfl, rfl, ?_⟩⟩
        have := hlex
        unfold slice at this
        rw [hk] at this
        exact this
      | some ty =>
        simp only []
        rw [addToken_eq]
        simp only []
        rw [if_pos ⟨by omega, a3⟩]
        refine ⟨rfl, hst.symm ▸ rfl, by simp; omega, a3, Or.inr ⟨ty, rfl, rfl, ?_⟩⟩
        have := hlex
        unfold slice at this
        rw [hk] at this
        exact this
  · rw [e f s hr, addToken_skip s 1 _ hst h1]
    refine ⟨rfl, rfl, Nat.lt_succ_self _, h1,
      Or.inr ⟨_, rfl, rfl, Or.inr (Or.inr (Or.inr (Or.inr (Or.inr (Or.inr ⟨hc, rfl, rfl⟩)))))⟩⟩

/-! ## The main loop -/

/-- Loop rule for `scanLoop`: a property `I` of the state kept by every call
of `scanToken` made by the loop holds of the state on which the loop ends,
together with the bounds invariant; the fuel runs out only when it is at most
the number of bytes left. -/
theorem scanLoop_spec (I : Scanner → Prop)
    (hI : ∀ s s', I s → s.current < s.source.length →
      Stepped { s with start := s.current } s' → I s') :
    ∀ (f : Nat) (s : Scanner), Inv s → I s →
      (scanLoop f s).Holds
        (fun s' => s'.source = s.source ∧ Inv s' ∧ s'.current = s.source.length ∧ I s')
        (fun s' => s'.source = s.source ∧ Inv s' ∧ f ≤ s.source.length - s.current)
  | 0, s, hinv, _ => by simp [scanLoop, Outcome.Holds, hinv]
  | f + 1, s, hinv, hi => by
    rw [scanLoop]
    split_ifs with he
    · simp only [isAtEnd, decide_eq_true_eq] at he
      exact ⟨rfl, hinv, Nat.le_antisymm hinv.2 he, hi⟩
    · simp only [isAtEnd, decide_eq_true_eq, not_le] at he
      have hs := scanToken_spec f { s with start := s.current } rfl he
      cases ht : scanToken f { s with start := s.current } with
      | panic => rw [ht] at hs; exact hs.elim
      | fuelOut s1 =>
        rw [ht] at hs
        obtain ⟨a1, a2, a3, a4, a5⟩ := hs
        simp at a1 a2 a3 a4 a5
        exact ⟨a1, ⟨by omega, by rw [a1]; exact a4⟩, by omega⟩
      | done s1 =>
        rw [ht] at hs
        have hi1 : I s1 := hI s s1 hi he hs
        obtain ⟨a1, a2, a3, a4, _⟩ := hs
        simp at a1 a2 a3 a4
        have hinv1 : Inv s1 := ⟨by omega, by rw [a1]; exact a4⟩
        refine (scanLoop_spec I hI f s1 hinv1 hi1).imp ?_ ?_
        · rintro s' ⟨b1, b2, b3, b4⟩
          exact ⟨b1.trans a1, b2, by rw [b3, a1], b4⟩
        · rintro s' ⟨b1, b2, b3⟩
          rw [a1] at b3
          exact ⟨b1.trans a1, b2, by omega⟩

theorem inv_NewScanner (src : List Byte) : Inv (NewScanner src) := by
  simp [Inv, NewScanner]

/-- With more fuel than bytes left the loop finishes, at the end of the
source. -/
theorem scanLoop_done (f : Nat) (s : Scanner) (hinv : Inv s)
    (hf : s.source.length - s.current < f) :
    ∃ s', scanLoop f s = Outcome.done s' ∧ s'.source = s.source ∧ Inv s'
      ∧ s'.current = s.source.length := by
  have hs := scanLoop_spec (fun _ => True) (fun _ _ _ _ _ => trivial) f s hinv trivial
  cases hl : scanLoop f s with
  | panic => rw [hl] at hs; exact hs.elim
  | fuelOut s1 => rw [hl] at hs; obtain ⟨_, _, a3⟩ := hs; omega
  | done s1 => rw [hl] at hs; exact ⟨s1, rfl, hs.1, hs.2.1, hs.2.2.1⟩

/-- Two finished runs of the loop from one state agree, whatever their
fuel. -/
theorem scanLoop_det (f f' : Nat) (s s1 s2 : Scanner) (h1 : scanLoop f s = Outcome.done s1)
    (h2 : scanLoop f' s = Outcome.done s2) : s1 = s2 := by
  have e1 := scanLoop_mono f s s1 h1 (max f f') (Nat.le_max_left _ _)
  have e2 := scanLoop_mono f' s s2 h2 (max f f') (Nat.le_max_right _ _)
  rw [e1] at e2
  exact Outcome.done.inj e2

theorem scan_eq_some (src : List Byte) :
    ∃ s', scanLoop (src.length + 1) (NewScanner src) = Outcome.done s'
      ∧ scan src = some (s'.tokens ++ [eofToken s'.line]) := by
  obtain ⟨s', h1, _⟩ := scanLoop_done (src.length + 1) (NewScanner src) (inv_NewScanner src)
    (by simp [NewScanner])
  refine ⟨s', h1, ?_⟩
  simp [scan, ScanTokens, h1]

/-! ## Scanning after a prefix -/

theorem byteAt_append_add (p src : List Byte) (i : Nat) :
    byteAt (p ++ src) (p.length + i) = byteAt src i := by
  unfold byteAt
  rw [List.getElem?_append_right (Nat.le_add_right _ _)]
  simp

theorem slice_append_add (p src : List Byte) (a b : Nat) :
    slice (p ++ src) (p.length + a) (p.length + b) = slice src a b := by
  unfold slice
  rw [List.drop_append, Nat.add_sub_add_left]

theorem shift_skip (p : List Byte) (T : List Token) (k : Nat) (s : Scanner) (n : Nat) :
    (s.shift p T k).skip n = (s.skip n).shift p T k := by
  simp [Scanner.shift, Scanner.skip, Nat.add_assoc]

theorem comment_shift (p : List Byte) (T : List Token) (k : Nat) :
    ∀ (f : Nat) (s : Scanner), comment f (s.shift p T k) = (comment f s).shift p T k
  | 0, s => rfl
  | f + 1, s => by
    rw [comment_succ, comment_succ]
    have e1 : byteAt (s.shift p T k).source (s.shift p T k).current
        = byteAt s.source s.current := byteAt_append_add _ _ _
    have e2 : byteAt (s.shift p T k).source ((s.shift p T k).current + 1)
        = byteAt s.source (s.current + 1) := by
      have := byteAt_append_add p s.source (s.current + 1)
      simpa [Scanner.shift, Nat.add_assoc] using this
    have e3 : ((s.shift p T k).source.length ≤ (s.shift p T k).current)
        ↔ (s.source.length ≤ s.current) := by
      simp [Scanner.shift]
    rw [e1, e2]
    simp only [e3]
    split_ifs
    · rfl
    · simp [Outcome.shift, Scanner.shift, Nat.add_assoc]
    · rw [← comment_shift p T k f]
      simp [Scanner.shift, Nat.add_assoc, Nat.add_comm 1 k]
    · rw [← comment_shift p T k f]
      simp [Scanner.shift, Nat.add_assoc]

theorem numberLoop_shift (p : List Byte) (T : List Token) (k : Nat) :
    ∀ (f : Nat) (s : Scanner), numberLoop f (s.shift p T k) = (numberLoop f s).shift p T k
  | 0, s => rfl
  | f + 1, s => by
    rw [numberLoop_succ, numberLoop_succ]
    have e1 : byteAt (s.shift p T k).source (s.shift p T k).current
        = byteAt s.source s.current := byteAt_append_add _ _ _
    rw [e1]
    split_ifs
    · rw [← numberLoop_shift p T k f]
      simp [Scanner.shift, Nat.add_assoc]
    · rfl

theorem identifierLoop_shift (p : List Byte) (T : List Token) (k : Nat) :
    ∀ (f : Nat) (s : Scanner),
      identifierLoop f (s.shift p T k) = (identifierLoop f s).shift p T k
  | 0, s => rfl
  | f + 1, s => by
    rw [identifierLoop_succ, identifierLoop_succ]
    have e1 : byteAt (s.shift p T k).source (s.shift p T k).current
        = byteAt s.source s.current := byteAt_append_add _ _ _
    rw [e1]
    split_ifs
    · rw [← identifierLoop_shift p T k f]
      simp [Scanner.shift, Nat.add_assoc]
    · rfl

theorem addToken_shift (p : List Byte) (T : List Token) (k : Nat) (s : Scanner)
    (ty : TokenType) :
    Outcome.ofOption (addToken (s.shift p T k) ty)
      = (Outcome.ofOption (addToken s ty)).shift p T k := by
  rw [addToken_eq, addToken_eq]
  have e : ((s.shift p T k).start ≤ (s.shift p T k).current
      ∧ (s.shift p T k).current ≤ (s.shift p T k).source.length)
      ↔ (s.start ≤ s.current ∧ s.current ≤ s.source.length) := by
    simp [Scanner.shift]
  simp only [e]
  split_ifs
  · simp only [Outcome.ofOption, Outcome.shift, Scanner.shift]
    rw [slice_append_add]
    simp [bump]
  · rfl

theorem number_shift (p : List Byte) (T : List Token) (k : Nat) (f : Nat) (s : Scanner) :
    number f (s.shift p T k) = (number f s).shift p T k := by
  unfold number
  rw [numberLoop_shift]
  cases numberLoop f s with
  | done s1 => exact addToken_shift p T k s1 NUMBER
  | panic => rfl
  | fuelOut s1 => rfl

theorem identifier_shift (p : List Byte) (T : List Token) (k : Nat) (f : Nat) (s : Scanner) :
    identifier f (s.shift p T k) = (identifier f s).shift p T k := by
  unfold identifier
  rw [identifierLoop_shift]
  cases identifierLoop f s with
  | panic => rfl
  | fuelOut s1 => rfl
  | done s1 =>
    simp only [Outcome.shift]
    have e : ((s1.shift p T k).start ≤ (s1.shift p T k).current
        ∧ (s1.shift p T k).current ≤ (s1.shift p T k).source.length)
        ↔ (s1.start ≤ s1.current ∧ s1.current ≤ s1.source.length) := by
      simp [Scanner.shift]
    have e2 : List.take ((s1.shift p T k).current - (s1.shift p T k).start)
        (List.drop (s1.shift p T k).start (s1.shift p T k).source)
        = List.take (s1.current - s1.start) (List.drop s1.start s1.source) :=
      slice_append_add p s1.source s1.start s1.current
    simp only [e, e2]
    split_ifs
    · cases keywords (List.take (s1.current - s1.start) (List.drop s1.start s1.source)) with
      | none => exact addToken_shift p T k s1 IDENTIFIER
      | some ty => exact addToken_shift p T k s1 ty
    · rfl

theorem reads_shift (p : List Byte) (T : List Token) (k : Nat) (s : Scanner) (c n : Nat)
    (h : Reads s c n) : Reads (s.shift p T k) c n := by
  obtain ⟨h1, h2, h3⟩ := h
  refine ⟨by simp [Scanner.shift]; exact h1, ?_, ?_⟩
  · rw [← h2]; exact byteAt_append_add _ _ _
  · rw [← h3]
    have := byteAt_append_add p s.source (s.current + 1)
    simpa [Scanner.shift, Nat.add_assoc] using this

theorem scanToken_shift (p : List Byte) (T : List Token) (k : Nat) (f : Nat) (s : Scanner) :
    scanToken f (s.shift p T k) = (scanToken f s).shift p T k := by
  by_cases hlt : s.current < s.source.length
  · have hr := reads_self s hlt
    have hr' := reads_shift p T k s _ _ hr
    rcases scanToken_cases (byteAt s.source s.current) (byteAt s.source (s.current + 1)) with
      ⟨_, _, e⟩ | ⟨_, _, e⟩ | ⟨_, _, e⟩ | ⟨_, _, e⟩ | ⟨_, _, e⟩ | ⟨_, e⟩ | ⟨_, e⟩ | ⟨_, e⟩
        | ⟨_, _, e⟩ | ⟨_, e⟩
    all_goals rw [e f _ hr, e f _ hr', shift_skip]
    any_goals exact addToken_shift _ _ _ _ _
    · exact comment_shift _ _ _ _ _
    · rfl
    · simp [Outcome.shift, Scanner.shift, Scanner.skip, Nat.add_right_comm]
    · exact number_shift _ _ _ _ _
    · exact identifier_shift _ _ _ _ _
  · have h1 : s.source.length ≤ s.current := Nat.le_of_not_lt hlt
    rw [scanToken_of_ge f s h1, scanToken_of_ge f _ (by simp [Scanner.shift]; exact h1)]
    rfl

theorem scanLoop_shift (p : List Byte) (T : List Token) (k : Nat) :
    ∀ (f : Nat) (s : Scanner), scanLoop f (s.shift p T k) = (scanLoop f s).shift p T k
  | 0, s => rfl
  | f + 1, s => by
    rw [scanLoop, scanLoop]
    have e : isAtEnd (s.shift p T k) = isAtEnd s := by
      simp [isAtEnd, Scanner.shift]
    rw [e]
    split_ifs
    · rfl
    · have e2 : ({ s.shift p T k with start := (s.shift p T k).current } : Scanner)
          = ({ s with start := s.current } : Scanner).shift p T k := rfl
      rw [e2, scanToken_shift]
      cases scanToken f { s with start := s.current } with
      | done s1 => exact scanLoop_shift p T k f s1
      | panic => rfl
      | fuelOut s1 => rfl

theorem scanToken_det (f f' : Nat) (s s1 s2 : Scanner) (h1 : scanToken f s = Outcome.done s1)
    (h2 : scanToken f' s = Outcome.done s2) : s1 = s2 := by
  have e1 := scanToken_mono f s s1 h1 (max f f') (Nat.le_max_left _ _)
  have e2 := scanToken_mono f' s s2 h2 (max f f') (Nat.le_max_right _ _)
  rw [e1] at e2
  exact Outcome.done.inj e2

/-- The loop resets `start` before it reads it: the tokens and the line of a
finished run do not depend on the `start` it is entered with. -/
theorem scanLoop_start (f : Nat) (s s' : Scanner) (a : Nat)
    (h : scanLoop f { s with start := a } = Outcome.done s') :
    ∃ s'', scanLoop f s = Outcome.done s'' ∧ s''.tokens = s'.tokens ∧ s''.line = s'.line := by
  cases f with
  | zero => simp [scanLoop] at h
  | succ f =>
    rw [scanLoop] at h ⊢
    have e : isAtEnd { s with start := a } = isAtEnd s := rfl
    rw [e] at h
    split_ifs at h ⊢
    · refine ⟨s, rfl, ?_, ?_⟩
      · rw [← Outcome.done.inj h]
      · rw [← Outcome.done.inj h]
    · exact ⟨s', h, rfl, rfl⟩

theorem bump_eofToken (k l : Nat) : bump k (eofToken l) = eofToken (l + k) := rfl

/-- Composition: when the first call of `scanToken` on `p ++ r` consumes
exactly `p`, appends the tokens `T` and leaves the line at `1 + k`, the scan
of `p ++ r` is `T` followed by the scan of `r` moved `k` lines down. -/
theorem scan_append (p r : List Byte) (T : List Token) (k f : Nat) (hp : p ≠ [])
    (h : scanToken f (NewScanner (p ++ r)) = Outcome.done
      { source := p ++ r, tokens := T, start := 0, current := p.length, line := 1 + k }) :
    ∃ ts, scan r = some ts ∧ scan (p ++ r) = some (T ++ ts.map (bump k)) := by
  obtain ⟨sF, hF, eF⟩ := scan_eq_some (p ++ r)
  obtain ⟨s4, h4, e4⟩ := scan_eq_some r
  refine ⟨_, e4, ?_⟩
  rw [eF]
  have hpl : 0 < p.length := List.length_pos.mpr hp
  rw [scanLoop] at hF
  have hne : isAtEnd (NewScanner (p ++ r)) = false := by
    simp only [isAtEnd, NewScanner, decide_eq_false_iff_not, ge_iff_le, not_le,
      List.length_append]
    omega
  rw [hne] at hF
  simp only [Bool.false_eq_true, if_false] at hF
  have e0 : ({ NewScanner (p ++ r) with start := (NewScanner (p ++ r)).current } : Scanner)
      = NewScanner (p ++ r) := rfl
  rw [e0] at hF
  cases ht : scanToken (p ++ r).length (NewScanner (p ++ r)) with
  | panic => rw [ht] at hF; simp at hF
  | fuelOut s1 => rw [ht] at hF; simp at hF
  | done s1 =>
    rw [ht] at hF
    simp only [] at hF
    have es1 := scanToken_det _ _ _ _ _ ht h
    rw [es1] at hF
    have e1 : (⟨p ++ r, T, 0, p.length, 1 + k⟩ : Scanner)
        = { ((NewScanner r).shift p T k) with start := 0 } := by
      simp [Scanner.shift, NewScanner]
    rw [e1] at hF
    obtain ⟨s2, h2, t2, l2⟩ := scanLoop_start _ _ _ _ hF
    rw [scanLoop_shift] at h2
    cases h3 : scanLoop (p ++ r).length (NewScanner r) with
    | panic => rw [h3] at h2; simp [Outcome.shift] at h2
    | fuelOut s3 => rw [h3] at h2; simp [Outcome.shift] at h2
    | done s3 =>
      rw [h3] at h2
      have e34 : s3 = s4 := scanLoop_det _ _ _ _ _ h3 h4
      have e2 : s3.shift p T k = s2 := Outcome.done.inj h2
      rw [← t2, ← l2, ← e2, e34]
      simp [Scanner.shift, bump_eofToken]

/-! ## The tokens of a scan -/

/-- Every token before the final one was emitted by `scanToken` for some
byte range `a..b` of the source. -/
theorem scan_tokens (src : List Byte) :
    ∃ s' : Scanner, scan src = some (s'.tokens ++ [eofToken s'.line])
      ∧ ∀ t ∈ s'.tokens, ∃ a b, a < b ∧ b ≤ src.length ∧ t.Value = slice src a b
          ∧ Lexeme src a b t.Typ := by
  obtain ⟨s', h1, h2⟩ := scan_eq_some src
  refine ⟨s', h2, ?_⟩
  have hs := scanLoop_spec
    (fun s => ∀ t ∈ s.tokens, ∃ a b, a < b ∧ b ≤ s.source.length ∧ t.Value = slice s.source a b
      ∧ Lexeme s.source a b t.Typ)
    (by
      intro s s1 hi hlt hstep
      obtain ⟨a1, _, a3, a4, a5⟩ := hstep
      simp only [] at a1 a3 a4 a5
      rw [a1]
      rcases a5 with a5 | ⟨ty, a5, _, a7⟩
      · rw [a5]; exact hi
      · rw [a5]
        intro t ht
        rcases List.mem_append.mp ht with ht | ht
        · exact hi t ht
        · rw [List.mem_singleton.mp ht]
          exact ⟨s.current, s1.current, a3, a4, rfl, a7⟩)
    (src.length + 1) (NewScanner src) (inv_NewScanner src)
    (by intro t ht; simp [NewScanner] at ht)
  rw [h1] at hs
  obtain ⟨b1, _, _, b4⟩ := hs
  rw [b1] at b4
  exact b4

theorem keywords_type (v : List Byte) (ty : TokenType) (h : keywords v = some ty) :
    ty ∈ keywordTypes := by
  unfold keywords at h
  split_ifs at h
  all_goals first
    | exact Option.noConfusion h
    | (rw [← Option.some.inj h]; decide)

theorem keywords_spelling (v : List Byte) (ty : TokenType) (h : keywords v = some ty) :
    v ∈ keywordSpellings := by
  unfold keywords at h
  split_ifs at h
  all_goals first
    | exact Option.noConfusion h
    | (subst_vars; decide)

theorem keywords_of_spelling (v : List Byte) (h : v ∈ keywordSpellings) :
    keywords v ≠ none := by
  simp only [keywordSpellings, List.mem_cons, List.mem_singleton, List.not_mem_nil,
    or_false] at h
  rcases h with h | h | h | h | h | h | h <;> subst h <;> decide

theorem keywords_ne_eof (v : List Byte) : keywords v ≠ some EOF :=
  fun h => absurd (keywords_type v EOF h) (by decide)

theorem punct_type (c : Nat) (ty : TokenType) (h : punct c = some ty) : ty ∈ punctTypes := by
  unfold punct at h
  split_ifs at h
  all_goals first
    | exact Option.noConfusion h
    | (rw [← Option.some.inj h]; decide)

theorem punct_char (c : Nat) (ty : TokenType) (h : punct c = some ty) :
    c < 65 ∧ isDigit c = false := by
  unfold punct at h
  split_ifs at h with h1 h2 h3 h4 h5 h6 h7 h8
  all_goals first
    | exact Option.noConfusion h
    | (subst_vars; exact ⟨by decide, by decide⟩)

theorem punct_not_keyword (c : Nat) (ty : TokenType) (h : punct c = some ty) :
    ty ∉ keywordTypes := by
  unfold punct at h
  split_ifs at h
  all_goals first
    | exact Option.noConfusion h
    | (rw [← Option.some.inj h]; decide)

theorem lexeme_ne_eof (src : List Byte) (a b : Nat) (ty : TokenType) (h : Lexeme src a b ty) :
    ty ≠ EOF := by
  intro he
  subst he
  rcases h with ⟨hp, _⟩ | ⟨_, _, _, e⟩ | ⟨_, _, _, e⟩ | ⟨_, _, _, e⟩ | ⟨_, _, _, e⟩
    | ⟨_, _, _, _, e⟩ | ⟨_, _, e⟩
  · exact absurd (punct_type _ _ hp) (by decide)
  · exact TokenType.noConfusion e
  · exact TokenType.noConfusion e
  · exact TokenType.noConfusion e
  · exact TokenType.noConfusion e
  · cases hk : keywords (slice src a b) with
    | none => rw [hk] at e; exact TokenType.noConfusion e
    | some ty' =>
      rw [hk] at e
      simp only [Option.getD_some] at e
      exact keywords_ne_eof _ (e ▸ hk)
  · exact TokenType.noConfusion e

/-! ## No panic -/

theorem comment_safe (f : Nat) (s : Scanner) (h : Inv s) : (comment f s).Holds Inv Inv := by
  refine (comment_spec f s h.2).imp ?_ ?_
  · rintro s' ⟨a1, _, a3, a4, a5⟩
    exact ⟨by rw [a3]; exact Nat.le_trans h.1 a4, by rw [a1]; exact a5⟩
  · rintro s' ⟨a1, _, a3, a4, a5, _⟩
    exact ⟨by rw [a3]; exact Nat.le_trans h.1 a4, by rw [a1]; exact a5⟩

theorem number_safe (f : Nat) (s : Scanner) (h : Inv s) : (number f s).Holds Inv Inv := by
  unfold number
  have hs := numberLoop_spec f s h.2
  cases hl : numberLoop f s with
  | panic => rw [hl] at hs; exact hs.elim
  | fuelOut s1 =>
    rw [hl] at hs
    obtain ⟨a1, a2, a3, _⟩ := hs
    rw [a1]
    exact ⟨Nat.le_trans h.1 a2, a3⟩
  | done s1 =>
    rw [hl] at hs
    obtain ⟨a1, a2, a3, _⟩ := hs
    have hi : s1.start ≤ s1.current ∧ s1.current ≤ s1.source.length := by
      rw [a1]; exact ⟨Nat.le_trans h.1 a2, a3⟩
    simp only []
    rw [addToken_eq, if_pos hi]
    exact hi

theorem identifier_safe (f : Nat) (s : Scanner) (h : Inv s) :
    (identifier f s).Holds Inv Inv := by
  unfold identifier
  have hs := identifierLoop_spec f s h.2
  cases hl : identifierLoop f s with
  | panic => rw [hl] at hs; exact hs.elim
  | fuelOut s1 =>
    rw [hl] at hs
    obtain ⟨a1, a2, a3, _⟩ := hs
    rw [a1]
    exact ⟨Nat.le_trans h.1 a2, a3⟩
  | done s1 =>
    rw [hl] at hs
    obtain ⟨a1, a2, a3, _⟩ := hs
    have hi : s1.start ≤ s1.current ∧ s1.current ≤ s1.source.length := by
      rw [a1]; exact ⟨Nat.le_trans h.1 a2, a3⟩
    simp only []
    rw [if_pos hi]
    cases keywords (List.take (s1.current - s1.start) (List.drop s1.start s1.source)) with
    | none => simp only []; rw [addToken_eq, if_pos hi]; exact hi
    | some ty => simp only []; rw [addToken_eq, if_pos hi]; exact hi

theorem scanToken_safe (f : Nat) (s : Scanner) (hlt : s.current < s.source.length) :
    (scanToken f { s with start := s.current }).Holds Inv Inv := by
  refine (scanToken_spec f { s with start := s.current } rfl hlt).imp ?_ ?_
  · rintro s' ⟨a1, a2, a3, a4, _⟩
    simp only [] at a1 a2 a3 a4
    exact ⟨by rw [a2]; exact Nat.le_of_lt a3, by rw [a1]; exact a4⟩
  · rintro s' ⟨a1, a2, a3, a4, _⟩
    simp only [] at a1 a2 a3 a4
    exact ⟨by rw [a2]; exact Nat.le_of_lt a3, by rw [a1]; exact a4⟩

theorem ScanTokens_safe (f : Nat) (s : Scanner) (h : Inv s) :
    (ScanTokens f s).Holds Inv Inv := by
  unfold ScanTokens
  have hs := scanLoop_spec (fun _ => True) (fun _ _ _ _ _ => trivial) f s h trivial
  cases hl : scanLoop f s with
  | panic => rw [hl] at hs; exact hs.elim
  | fuelOut s1 => rw [hl] at hs; exact hs.2.1
  | done s1 => rw [hl] at hs; exact hs.2.1

theorem ScanTokens_done (src : List Byte) (f : Nat) (hf : src.length < f) :
    ∃ s', ScanTokens f (NewScanner src) = Outcome.done s'
      ∧ ScanTokens (src.length + 1) (NewScanner src) = Outcome.done s'
      ∧ s'.current = src.length := by
  obtain ⟨s1, h1, _, _, h4⟩ := scanLoop_done (src.length + 1) (NewScanner src)
    (inv_NewScanner src) (by simp [NewScanner])
  have h0 : ScanTokens (src.length + 1) (NewScanner src)
      = Outcome.done { s1 with tokens := s1.tokens ++ [eofToken s1.line] } := by
    simp [ScanTokens, h1]
  exact ⟨_, ScanTokens_mono _ _ _ h0 f hf, h0, h4⟩

/-! ## The first token of a scan -/

theorem byteAt_cons_zero (c : Byte) (r : List Byte) : byteAt (c :: r) 0 = c.val := by
  simp [byteAt]

theorem byteAt_cons_succ (c : Byte) (r : List Byte) (i : Nat) :
    byteAt (c :: r) (i + 1) = byteAt r i := by
  simp [byteAt]

theorem byteAt_append_left (p r : List Byte) (i : Nat) (h : i < p.length) :
    byteAt (p ++ r) i = byteAt p i := by
  unfold byteAt
  rw [List.getElem?_append_left h]

theorem byteAt_append_length (p r : List Byte) : byteAt (p ++ r) p.length = byteAt r 0 :=
  byteAt_append_add p r 0

theorem byteAt_mem (src : List Byte) (i : Nat) (h : i < src.length) :
    ∃ b ∈ src, byteAt src i = b.val :=
  ⟨src[i], List.getElem_mem h, byteAt_of_lt h⟩

theorem slice_zero_length (p r : List Byte) : slice (p ++ r) 0 p.length = p := by
  simp [slice]

theorem bump_zero (ts : List Token) : ts.map (bump 0) = ts := by
  have : bump 0 = id := funext fun t => rfl
  rw [this, List.map_id]

theorem reads_NewScanner (c : Byte) (r : List Byte) :
    Reads (NewScanner (c :: r)) c.val (byteAt r 0) :=
  ⟨by simp [NewScanner], by simp [NewScanner, byteAt], by simp [NewScanner, byteAt]⟩

theorem isDigit_iff (c : Nat) : isDigit c = true ↔ 48 ≤ c ∧ c ≤ 57 := by
  simp [isDigit]

theorem isAlpha_ge (c : Nat) (h : isAlpha c = true) : 65 ≤ c := by
  simp [isAlpha] at h
  omega

theorem isAlpha_not_digit (c : Nat) (h : isAlpha c = true) : isDigit c = false := by
  have h1 := isAlpha_ge c h
  cases hd : isDigit c with
  | false => rfl
  | true => have := (isDigit_iff c).mp hd; omega

theorem scanToken_digit (f : Nat) (s : Scanner) (c n : Nat) (hr : Reads s c n)
    (hd : isDigit c = true) : scanToken f s = number f (s.skip 1) := by
  have h := (isDigit_iff c).mp hd
  rcases scanToken_cases c n with
    ⟨ty, hp, _⟩ | ⟨hc, _, _⟩ | ⟨hc, _, _⟩ | ⟨hc, _, _⟩ | ⟨hc, _, _⟩ | ⟨hc, _⟩ | ⟨hc, _⟩
      | ⟨_, e⟩ | ⟨_, hc, _⟩ | ⟨hc, _⟩
  · have := (punct_char c ty hp).2
    rw [hd] at this; exact Bool.noConfusion this
  · simp at hc; omega
  · simp at hc; omega
  · simp at hc; omega
  · simp at hc; omega
  · simp at hc; omega
  · simp at hc; omega
  · exact e f s hr
  · rw [hd] at hc; exact Bool.noConfusion hc
  · have := hc.2.2.2.2.2.2.2.1
    rw [hd] at this; exact Bool.noConfusion this

theorem scanToken_alpha (f : Nat) (s : Scanner) (c n : Nat) (hr : Reads s c n)
    (ha : isAlpha c = true) : scanToken f s = identifier f (s.skip 1) := by
  have h := isAlpha_ge c ha
  have hd := isAlpha_not_digit c ha
  rcases scanToken_cases c n with
    ⟨ty, hp, _⟩ | ⟨hc, _, _⟩ | ⟨hc, _, _⟩ | ⟨hc, _, _⟩ | ⟨hc, _, _⟩ | ⟨hc, _⟩ | ⟨hc, _⟩
      | ⟨hc, _⟩ | ⟨_, _, e⟩ | ⟨hc, _⟩
  · have := (punct_char c ty hp).1
    omega
  · simp at hc; omega
  · simp at hc; omega
  · simp at hc; omega
  · simp at hc; omega
  · simp at hc; omega
  · simp at hc; omega
  · rw [hd] at hc; exact Bool.noConfusion hc
  · exact e f s hr
  · have := hc.2.2.2.2.2.2.2.2
    rw [ha] at this; exact Bool.noConfusion this

theorem scanToken_other (f : Nat) (s : Scanner) (c n : Nat) (hr : Reads s c n)
    (ho : isOther c) : scanToken f s = Outcome.ofOption (addToken (s.skip 1) ILLEGAL) := by
  obtain ⟨o1, o2, o3, o4, o5, o6, o7, o8, o9⟩ := ho
  rcases scanToken_cases c n with
    ⟨ty, hp, _⟩ | ⟨hc, _, _⟩ | ⟨hc, _, _⟩ | ⟨hc, _, _⟩ | ⟨hc, _, _⟩ | ⟨hc, _⟩ | ⟨hc, _⟩
      | ⟨hc, _⟩ | ⟨hc, _, _⟩ | ⟨_, e⟩
  · rw [o1] at hp; exact Option.noConfusion hp
  · exact absurd hc o2
  · exact absurd hc o2
  · exact absurd hc o3
  · exact absurd hc o3
  · rcases hc with hc | hc | hc
    · exact absurd hc o4
    · exact absurd hc o5
    · exact absurd hc o6
  · exact absurd hc o7
  · rw [o8] at hc; exact Bool.noConfusion hc
  · rw [o9] at hc; exact Bool.noConfusion hc
  · exact e f s hr

/-- A scan that starts with a one-byte token. -/
theorem scan_cons_token (c : Byte) (r : List Byte) (ty : TokenType) (f : Nat)
    (h : scanToken f (NewScanner (c :: r))
      = Outcome.ofOption (addToken ((NewScanner (c :: r)).skip 1) ty)) :
    ∃ ts, scan r = some ts ∧ scan (c :: r) = some (⟨ty, [c], 1⟩ :: ts) := by
  rw [addToken_skip _ 1 ty rfl (by simp [NewScanner])] at h
  have h' : scanToken f (NewScanner ([c] ++ r)) = Outcome.done
      { source := [c] ++ r, tokens := [⟨ty, [c], 1⟩], start := 0, current := [c].length,
        line := 1 + 0 } := by
    have e : [c] ++ r = c :: r := rfl
    rw [e, h]
    simp [Outcome.ofOption, Scanner.skip, NewScanner, slice]
  obtain ⟨ts, h1, h2⟩ := scan_append [c] r _ 0 f (by simp) h'
  rw [bump_zero] at h2
  exact ⟨ts, h1, h2⟩

theorem scanToken_punct (f : Nat) (s : Scanner) (c n : Nat) (ty : TokenType)
    (hr : Reads s c n) (hp : punct c = some ty) :
    scanToken f s = Outcome.ofOption (addToken (s.skip 1) ty) := by
  rw [scanToken_eq f s hr.1, hr.2.1]
  unfold punct at hp
  split_ifs at hp with h1 h2 h3 h4 h5 h6 h7 h8
  all_goals first
    | exact Option.noConfusion hp
    | (rw [← Option.some.inj hp]; subst_vars; simp [Scanner.skip])

theorem scanToken_assign (f : Nat) (s : Scanner) (hr : Reads s ':'.toNat '='.toNat) :
    scanToken f s = Outcome.ofOption (addToken (s.skip 2) ASSIGN) := by
  rw [scanToken_eq f s hr.1, hr.2.1, hr.2.2]
  simp [Scanner.skip]

theorem scanToken_colon (f : Nat) (s : Scanner) (n : Nat) (hr : Reads s ':'.toNat n)
    (hn : n ≠ '='.toNat) :
    scanToken f s = Outcome.ofOption (addToken (s.skip 1) ILLEGAL) := by
  rw [scanToken_eq f s hr.1, hr.2.1, hr.2.2]
  have hn' : ¬ n = 61 := hn
  simp [Scanner.skip, hn']

theorem scanToken_comment (f : Nat) (s : Scanner) (hr : Reads s '/'.toNat '*'.toNat) :
    scanToken f s = comment f (s.skip 2) := by
  rw [scanToken_eq f s hr.1, hr.2.1, hr.2.2]
  simp [Scanner.skip]

theorem scanToken_div (f : Nat) (s : Scanner) (n : Nat) (hr : Reads s '/'.toNat n)
    (hn : n ≠ '*'.toNat) :
    scanToken f s = Outcome.ofOption (addToken (s.skip 1) DIV) := by
  rw [scanToken_eq f s hr.1, hr.2.1, hr.2.2]
  have hn' : ¬ n = 42 := hn
  simp [Scanner.skip, hn']

theorem scanToken_blank (f : Nat) (s : Scanner) (c n : Nat) (hr : Reads s c n)
    (hc : c = ' '.toNat ∨ c = '\r'.toNat ∨ c = '\t'.toNat) :
    scanToken f s = Outcome.done (s.skip 1) := by
  rw [scanToken_eq f s hr.1, hr.2.1]
  rcases hc with h | h | h <;> subst h <;> simp [Scanner.skip]

theorem scanToken_newline (f : Nat) (s : Scanner) (n : Nat) (hr : Reads s '\n'.toNat n) :
    scanToken f s = Outcome.done { s.skip 1 with line := s.line + 1 } := by
  rw [scanToken_eq f s hr.1, hr.2.1]
  simp [Scanner.skip]

theorem byteAt_zero_ne (r : List Byte) (b : Byte) (hb : b.val ≠ 0) (h : r.head? ≠ some b) :
    byteAt r 0 ≠ b.val := by
  cases r with
  | nil => simpa [byteAt] using hb.symm
  | cons x r =>
    rw [byteAt_cons_zero]
    intro e
    exact h (by simp [Fin.ext e])

set_option maxRecDepth 100000 in
theorem isOther_of_ascii : ∀ c : Byte, c.val < 128 → isAsciiLetter c = false →
    isAsciiDigit c = false → c ∉ ascii "();+-*<=:/" → c ∉ ascii " \t\r\n" →
    isOther c.val := by
  decide

/-- A greedy loop stops at one place only: the first index from `a` on whose
rune fails `P`. -/
theorem stop_unique (P : Nat → Bool) (src : List Byte) (a n c : Nat)
    (hall : ∀ j, a ≤ j → j < n → P (byteAt src j) = true) (hstop : P (byteAt src n) = false)
    (ha : a ≤ n) (h1 : ∀ j, a ≤ j → j < c → P (byteAt src j) = true)
    (h2 : P (byteAt src c) = false) (hc : a ≤ c) : c = n := by
  rcases Nat.lt_trichotomy c n with h | h | h
  · have := hall c hc h
    rw [h2] at this; exact Bool.noConfusion this
  · exact h
  · have := h1 n ha h
    rw [hstop] at this; exact Bool.noConfusion this

theorem byteAt_word (P : Nat → Bool) (w r : List Byte) (hall : ∀ b ∈ w, P b.val = true)
    (j : Nat) (hj : j < w.length) : P (byteAt (w ++ r) j) = true := by
  rw [byteAt_append_left w r j hj]
  obtain ⟨b, hb, e⟩ := byteAt_mem w j hj
  rw [e]; exact hall b hb

/-- The first call of `scanToken` on a run of digits `d` followed by `r`,
where `r` does not begin with a digit. -/
theorem number_run (d r : List Byte) (hd : d ≠ []) (hall : ∀ b ∈ d, isDigit b.val = true)
    (hr : isDigit (byteAt r 0) = false) :
    scanToken (d ++ r).length (NewScanner (d ++ r)) = Outcome.done
      { source := d ++ r, tokens := [⟨NUMBER, d, 1⟩], start := 0, current := d.length,
        line := 1 + 0 } := by
  have hpos : 0 < d.length := List.length_pos.mpr hd
  have hlen : 0 < (d ++ r).length := by rw [List.length_append]; omega
  have hreads : Reads (NewScanner (d ++ r)) (byteAt (d ++ r) 0) (byteAt (d ++ r) 1) :=
    ⟨hlen, rfl, rfl⟩
  rw [scanToken_digit _ _ _ _ hreads (byteAt_word isDigit d r hall 0 hpos)]
  unfold number
  have hs := numberLoop_spec (d ++ r).length ((NewScanner (d ++ r)).skip 1) hlen
  cases hl : numberLoop (d ++ r).length ((NewScanner (d ++ r)).skip 1) with
  | panic => rw [hl] at hs; exact hs.elim
  | fuelOut s1 =>
    rw [hl] at hs
    obtain ⟨_, _, _, a4⟩ := hs
    simp [Scanner.skip, NewScanner] at a4
    omega
  | done s1 =>
    rw [hl] at hs
    obtain ⟨a1, a2, a3, a4, a5⟩ := hs
    simp only [Scanner.skip, NewScanner, Nat.zero_add] at a1 a2 a3 a4 a5
    have hc : s1.current = d.length :=
      stop_unique isDigit (d ++ r) 1 d.length s1.current
        (fun j _ hj => byteAt_word isDigit d r hall j hj)
        (by rw [byteAt_append_length]; exact hr) hpos a4 a5 a2
    rw [hc] at a1
    simp only []
    rw [a1, addToken_eq]
    simp only [Nat.zero_le, true_and, List.length_append, Nat.le_add_right, if_true,
      Outcome.ofOption, List.nil_append, slice_zero_length]

/-- The first call of `scanToken` on a word `w` (a letter, then letters and
digits) followed by `r`, where `r` does not begin with a letter or digit. -/
theorem identifier_run (w r : List Byte) (hw : w ≠ [])
    (h0 : isAlpha (byteAt w 0) = true) (hall : ∀ b ∈ w, isAlphaNumeric b.val = true)
    (hr : isAlphaNumeric (byteAt r 0) = false) :
    scanToken (w ++ r).length (NewScanner (w ++ r)) = Outcome.done
      { source := w ++ r, tokens := [⟨(keywords w).getD IDENTIFIER, w, 1⟩], start := 0,
        current := w.length, line := 1 + 0 } := by
  have hpos : 0 < w.length := List.length_pos.mpr hw
  have hlen : 0 < (w ++ r).length := by rw [List.length_append]; omega
  have hreads : Reads (NewScanner (w ++ r)) (byteAt (w ++ r) 0) (byteAt (w ++ r) 1) :=
    ⟨hlen, rfl, rfl⟩
  rw [scanToken_alpha _ _ _ _ hreads (by rw [byteAt_append_left w r 0 hpos]; exact h0)]
  unfold identifier
  have hs := identifierLoop_spec (w ++ r).length ((NewScanner (w ++ r)).skip 1) hlen
  cases hl : identifierLoop (w ++ r).length ((NewScanner (w ++ r)).skip 1) with
  | panic => rw [hl] at hs; exact hs.elim
  | fuelOut s1 =>
    rw [hl] at hs
    obtain ⟨_, _, _, a4⟩ := hs
    simp [Scanner.skip, NewScanner] at a4
    omega
  | done s1 =>
    rw [hl] at hs
    obtain ⟨a1, a2, a3, a4, a5⟩ := hs
    simp only [Scanner.skip, NewScanner, Nat.zero_add] at a1 a2 a3 a4 a5
    have hc : s1.current = w.length :=
      stop_unique isAlphaNumeric (w ++ r) 1 w.length s1.current
        (fun j _ hj => byteAt_word isAlphaNumeric w r hall j hj)
        (by rw [byteAt_append_length]; exact hr) hpos a4 a5 a2
    rw [hc] at a1
    simp only []
    rw [a1]
    simp only [Nat.zero_le, true_and, List.length_append, Nat.le_add_right, if_true,
      List.drop_zero, Nat.sub_zero, List.take_left']
    cases hk : keywords w with
    | none =>
      simp only [addToken_eq, Nat.zero_le, true_and, List.length_append, Nat.le_add_right,
        if_true, Outcome.ofOption, List.nil_append, slice_zero_length, Option.getD_none]
    | some ty =>
      simp only [addToken_eq, Nat.zero_le, true_and, List.length_append, Nat.le_add_right,
        if_true, Outcome.ofOption, List.nil_append, slice_zero_length, Option.getD_some]

theorem wordCategory_eq (w : List Byte) : wordCategory w = (keywords w).getD IDENTIFIER := by
  unfold wordCategory keywords
  split_ifs <;> rfl

theorem isAlpha_of_ascii (b : Byte) (h : isAsciiLetter b = true) : isAlpha b.val = true := by
  simp only [isAsciiLetter, Bool.or_eq_true, Bool.and_eq_true, decide_eq_true_eq] at h
  simp only [isAlpha, Bool.or_eq_true, Bool.and_eq_true, decide_eq_true_eq]
  exact Or.inl (Or.inl (Or.inl (Or.inl (Or.inl (Or.inl h)))))

theorem isDigit_of_ascii (b : Byte) : isDigit b.val = isAsciiDigit b := rfl

set_option maxRecDepth 100000 in
theorem not_alnum_of_ascii : ∀ b : Byte, b.val < 128 → isAsciiLetter b = false →
    isAsciiDigit b = false → isAlphaNumeric b.val = false := by
  decide

theorem byteAt_zero_head (P : Nat → Bool) (r : List Byte) (h0 : P 0 = false)
    (h : ∀ b, r.head? = some b → P b.val = false) : P (byteAt r 0) = false := by
  cases r with
  | nil => simpa [byteAt] using h0
  | cons x r => rw [byteAt_cons_zero]; exact h x rfl

theorem slice_length (src : List Byte) (a b : Nat) (hb : b ≤ src.length) :
    (slice src a b).length = b - a := by
  simp [slice]; omega

theorem mem_slice (src : List Byte) (a b : Nat) (x : Byte) (hx : x ∈ slice src a b) :
    ∃ j, a ≤ j ∧ j < b ∧ j < src.length ∧ byteAt src j = x.val := by
  obtain ⟨i, hi, e⟩ := List.mem_iff_getElem.mp hx
  have hi' := hi
  simp only [slice, List.length_take, List.length_drop] at hi'
  refine ⟨a + i, by omega, by omega, by omega, ?_⟩
  rw [byteAt_of_lt (by omega)]
  simp only [slice, List.getElem_take, List.getElem_drop] at e
  rw [e]

theorem slice_head (src : List Byte) (a b : Nat) (hab : a < b) (hb : b ≤ src.length) :
    ∃ x rest, slice src a b = x :: rest ∧ byteAt src a = x.val := by
  have hl := slice_length src a b hb
  cases hs : slice src a b with
  | nil => rw [hs] at hl; simp at hl; omega
  | cons x rest =>
    refine ⟨x, rest, rfl, ?_⟩
    have hx : (slice src a b)[0]? = some x := by rw [hs]; simp
    simp only [slice] at hx
    rw [List.getElem?_take_of_lt (by omega), List.getElem?_drop, Nat.add_zero] at hx
    simp only [byteAt, hx]

theorem lexeme_number (src : List Byte) (a b : Nat) (h : Lexeme src a b NUMBER) :
    ∀ j, a ≤ j → j < b → isDigit (byteAt src j) = true := by
  rcases h with ⟨hp, _⟩ | ⟨_, _, _, e⟩ | ⟨_, _, _, e⟩ | ⟨_, _, _, e⟩ | ⟨_, hdig, _, _⟩
    | ⟨_, _, _, _, e⟩ | ⟨_, _, e⟩
  · exact absurd (punct_type _ _ hp) (by decide)
  · exact TokenType.noConfusion e
  · exact TokenType.noConfusion e
  · exact TokenType.noConfusion e
  · exact hdig
  · cases hk : keywords (slice src a b) with
    | none => rw [hk] at e; exact TokenType.noConfusion e
    | some ty =>
      rw [hk] at e
      simp only [Option.getD_some] at e
      subst e
      exact absurd (keywords_type _ _ hk) (by decide)
  · exact TokenType.noConfusion e

theorem keywords_isSome_iff (v : List Byte) :
    v ∈ keywordSpellings ↔ ∃ ty, keywords v = some ty :=
  ⟨fun h => Option.ne_none_iff_exists'.mp (keywords_of_spelling v h),
    fun ⟨ty, h⟩ => keywords_spelling v ty h⟩



theorem spelling_head (v : List Byte) (h : v ∈ keywordSpellings) :
    ∃ x rest, v = x :: rest ∧ isAlpha x.val = true := by
  simp only [keywordSpellings, List.mem_cons, List.mem_singleton, List.not_mem_nil,
    or_false] at h
  rcases h with h | h | h | h | h | h | h <;> subst h <;>
    exact ⟨_, _, rfl, by decide⟩

theorem keywordOk_of_not (ty : TokenType) (v : List Byte) (line : Nat)
    (h1 : ty ∉ keywordTypes) (h2 : v ∉ keywordSpellings) : KeywordOk ⟨ty, v, line⟩ :=
  ⟨⟨fun h => absurd h h1, fun h => absurd h h2⟩, fun h => absurd h h2⟩

theorem lexeme_keywordOk (src : List Byte) (a b : Nat) (ty : TokenType) (line : Nat)
    (hab : a < b) (hb : b ≤ src.length) (h : Lexeme src a b ty) :
    KeywordOk ⟨ty, slice src a b, line⟩ := by
  have hhead : slice src a b ∈ keywordSpellings → isAlpha (byteAt src a) = true := by
    intro hm
    obtain ⟨x, rest, e1, e2⟩ := slice_head src a b hab hb
    obtain ⟨y, rest', e3, e4⟩ := spelling_head _ hm
    rw [e1] at e3
    rw [e2, (List.cons.inj e3).1]
    exact e4
  rcases h with ⟨h, _⟩ | ⟨hc, _, _, h⟩ | ⟨hc, _, _, h⟩ | ⟨hc, _, _, h⟩ | ⟨hc, _, _, h⟩
    | ⟨_, _, _, _, h⟩ | ⟨hc, _, h⟩
  · refine keywordOk_of_not _ _ _ (punct_not_keyword _ _ h) (fun hm => ?_)
    have ha := isAlpha_ge _ (hhead hm)
    have := (punct_char _ _ h).1
    omega
  · refine keywordOk_of_not _ _ _ (by subst h; decide) (fun hm => ?_)
    have ha := isAlpha_ge _ (hhead hm)
    simp at hc; omega
  · refine keywordOk_of_not _ _ _ (by subst h; decide) (fun hm => ?_)
    have ha := isAlpha_ge _ (hhead hm)
    simp at hc; omega
  · refine keywordOk_of_not _ _ _ (by subst h; decide) (fun hm => ?_)
    have ha := isAlpha_ge _ (hhead hm)
    simp at hc; omega
  · refine keywordOk_of_not _ _ _ (by subst h; decide) (fun hm => ?_)
    have ha := isAlpha_not_digit _ (hhead hm)
    rw [hc] at ha; exact Bool.noConfusion ha
  · cases hk : keywords (slice src a b) with
    | none =>
      rw [hk] at h
      simp only [Option.getD_none] at h
      refine keywordOk_of_not _ _ _ (by subst h; decide) (fun hm => ?_)
      obtain ⟨ty', h'⟩ := (keywords_isSome_iff _).mp hm
      rw [hk] at h'; exact Option.noConfusion h'
    | some ty' =>
      rw [hk] at h
      simp only [Option.getD_some] at h
      subst h
      exact ⟨⟨fun _ => (keywords_isSome_iff _).mpr ⟨ty, hk⟩,
        fun _ => keywords_type _ _ hk⟩, fun _ => hk⟩
  · refine keywordOk_of_not _ _ _ (by subst h; decide) (fun hm => ?_)
    have ha := hhead hm
    rw [hc.2.2.2.2.2.2.2.2] at ha; exact Bool.noConfusion ha

theorem bump_bump (a b : Nat) (ts : List Token) :
    (ts.map (bump a)).map (bump b) = ts.map (bump (a + b)) := by
  rw [List.map_map]
  congr 1
  funext t
  simp [bump, Nat.add_assoc]

/-- The first call of `scanToken` on a blank byte: no token, and the line
goes up by one on a newline. -/
theorem blank_run (c : Byte) (r : List Byte) (hc : c ∈ ascii " \t\r\n") :
    scanToken 0 (NewScanner ([c] ++ r)) = Outcome.done
      { source := [c] ++ r, tokens := [], start := 0, current := [c].length,
        line := 1 + [c].count (byte '\n') } := by
  have hr : Reads (NewScanner (c :: r)) c.val (byteAt r 0) := reads_NewScanner c r
  have e : [c] ++ r = c :: r := rfl
  rw [e]
  have hm : c = byte ' ' ∨ c = byte '\t' ∨ c = byte '\r' ∨ c = byte '\n' := by
    simpa [ascii] using hc
  rcases hm with h | h | h | h
  · rw [scanToken_blank 0 _ _ _ hr (Or.inl (by rw [h]; rfl)), h]; rfl
  · rw [scanToken_blank 0 _ _ _ hr (Or.inr (Or.inr (by rw [h]; rfl))), h]; rfl
  · rw [scanToken_blank 0 _ _ _ hr (Or.inr (Or.inl (by rw [h]; rfl))), h]; rfl
  · subst h
    rw [scanToken_newline 0 _ _ hr]; rfl

theorem scan_blanks (w r : List Byte) (hw : ∀ b ∈ w, b ∈ ascii " \t\r\n") :
    ∃ ts, scan r = some ts ∧ scan (w ++ r) = some (ts.map (bump (w.count (byte '\n')))) := by
  induction w with
  | nil =>
    obtain ⟨s', _, h⟩ := scan_eq_some r
    exact ⟨_, h, by rw [List.nil_append, List.count_nil, bump_zero]; exact h⟩
  | cons c w ih =>
    obtain ⟨ts, h1, h2⟩ := ih (fun b hb => hw b (List.mem_cons_of_mem c hb))
    obtain ⟨ts', h3, h4⟩ := scan_append [c] (w ++ r) _ _ 0 (by simp)
      (blank_run c (w ++ r) (hw c (List.mem_cons_self c w)))
    rw [h2] at h3
    refine ⟨ts, h1, ?_⟩
    rw [List.cons_append]
    have e : [c] ++ (w ++ r) = c :: (w ++ r) := rfl
    rw [e] at h4
    rw [h4, ← Option.some.inj h3, List.nil_append, bump_bump]
    simp [List.count_cons]

/-! ## Calling `ScanTokens` again -/

/-- On a scanner whose cursor is at the end, `ScanTokens` only appends one
more `EOF` token. -/
theorem ScanTokens_at_end (s : Scanner) (h : s.source.length ≤ s.current) (f : Nat)
    (hf : 0 < f) :
    ScanTokens f s = Outcome.done { s with tokens := s.tokens ++ [eofToken s.line] } := by
  obtain ⟨f', rfl⟩ : ∃ f', f = f' + 1 := ⟨f - 1, by omega⟩
  have he : isAtEnd s = true := by simp [isAtEnd, h]
  simp [ScanTokens, scanLoop, he]

/-- The state on which the first `ScanTokens` of a fresh scanner ends. -/
theorem ScanTokens_first (src : List Byte) (f : Nat) (hf : src.length < f) :
    ∃ sL : Scanner, ScanTokens f (NewScanner src)
        = Outcome.done { sL with tokens := sL.tokens ++ [eofToken sL.line] }
      ∧ sL.current = src.length ∧ sL.source = src
      ∧ scan src = some (sL.tokens ++ [eofToken sL.line])
      ∧ ∀ t ∈ sL.tokens, t.Typ ≠ EOF := by
  obtain ⟨sL, h1, h2, _, h4⟩ := scanLoop_done (src.length + 1) (NewScanner src)
    (inv_NewScanner src) (by simp [NewScanner])
  have h0 : ScanTokens (src.length + 1) (NewScanner src)
      = Outcome.done { sL with tokens := sL.tokens ++ [eofToken sL.line] } := by
    simp [ScanTokens, h1]
  have hs : scan src = some (sL.tokens ++ [eofToken sL.line]) := by
    simp [scan, h0]
  refine ⟨sL, ScanTokens_mono _ _ _ h0 f hf, h4, h2, hs, ?_⟩
  obtain ⟨s', e1, e2⟩ := scan_tokens src
  rw [hs] at e1
  have e3 := (List.append_inj' (Option.some.inj e1) rfl).1
  intro t ht
  rw [e3] at ht
  obtain ⟨a, b, _, _, _, hl⟩ := e2 t ht
  exact lexeme_ne_eof _ _ _ _ hl

/-! ## Newlines and the end of a comment -/

theorem slice_self (src : List Byte) (a : Nat) : slice src a a = [] := by
  simp [slice]

theorem slice_cons_left (src : List Byte) (a b : Nat) (hab : a < b) (ha : a < src.length) :
    slice src a b = src[a] :: slice src (a + 1) b := by
  unfold slice
  rw [List.drop_eq_getElem_cons ha]
  obtain ⟨k, hk⟩ : ∃ k, b - a = k + 1 := ⟨b - a - 1, by omega⟩
  have hk' : b - (a + 1) = k := by omega
  rw [hk, hk', List.take_succ_cons]

theorem newlines_slice_left (src : List Byte) (a b : Nat) (hab : a < b)
    (ha : a < src.length) :
    newlines (slice src a b)
      = newlines (slice src (a + 1) b) + (if byteAt src a = '\n'.toNat then 1 else 0) := by
  rw [slice_cons_left src a b hab ha, byteAt_of_lt ha]
  unfold newlines
  rw [List.count_cons]
  congr 1
  by_cases h : src[a] = byte '\n'
  · rw [h]; rfl
  · have h2 : ¬ (src[a]).val = 10 := fun e => h (Fin.ext e)
    simp [h, h2]

theorem not_closer_of_ge (src : List Byte) (j : Nat) (h : src.length ≤ j) :
    ¬ IsCloser src j := by
  intro hc
  have := hc.1
  rw [byteAt_of_ge h] at this
  exact absurd this (by decide)

theorem closer_lt (src : List Byte) (j : Nat) (h : IsCloser src j) : j + 1 < src.length :=
  lt_of_byteAt_ne_zero (by rw [h.2]; decide)

/-- The loop of `comment` adds to the line the number of newlines it
consumes and stops where `CommentEnd` says. -/
theorem comment_line : ∀ (f : Nat) (s : Scanner), s.current ≤ s.source.length →
    (comment f s).Holds
      (fun s' => s'.line = s.line + newlines (slice s.source s.current s'.current)
        ∧ CommentEnd s.source s.current s'.current)
      (fun _ => True)
  | 0, s, _ => by simp [comment, Outcome.Holds]
  | f + 1, s, h => by
    rw [comment_succ]
    by_cases h1 : s.source.length ≤ s.current
    · rw [if_pos h1]
      refine ⟨by rw [slice_self]; rfl, Or.inr ⟨Nat.le_antisymm h h1, fun j hj => ?_⟩⟩
      exact not_closer_of_ge _ _ (Nat.le_trans h1 hj)
    rw [if_neg h1]
    by_cases h2 : byteAt s.source s.current = '*'.toNat
        ∧ byteAt s.source (s.current + 1) = '/'.toNat
    · rw [if_pos h2]
      have hl := closer_lt _ _ h2
      refine ⟨?_, Or.inl ⟨s.current, Nat.le_refl _, rfl, h2, fun j h4 h5 => by omega⟩⟩
      simp only []
      rw [newlines_slice_left _ _ _ (by omega) (by omega),
        newlines_slice_left _ _ _ (by omega) (by omega), slice_self, h2.1, h2.2]
      rfl
    rw [if_neg h2]
    have hlt : s.current < s.source.length := Nat.lt_of_not_le h1
    generalize hL : (if byteAt s.source s.current = '\n'.toNat then s.line + 1 else s.line) = L
    have hLeq : L = s.line + (if byteAt s.source s.current = '\n'.toNat then 1 else 0) := by
      rw [← hL]; split_ifs <;> rfl
    have hspec := comment_spec f ⟨s.source, s.tokens, s.start, s.current + 1, L⟩ hlt
    have ih := comment_line f ⟨s.source, s.tokens, s.start, s.current + 1, L⟩ hlt
    revert hspec ih
    cases comment f ⟨s.source, s.tokens, s.start, s.current + 1, L⟩ with
    | panic => exact fun hs _ => hs
    | fuelOut s' => exact fun _ _ => trivial
    | done s' =>
      rintro ⟨_, _, _, a4, _⟩ ⟨b1, b2⟩
      simp only [] at a4 b1 b2
      refine ⟨?_, ?_⟩
      · rw [b1, newlines_slice_left _ _ _ a4 hlt, hLeq]
        omega
      · rcases b2 with ⟨e, e1, e2, e3, e4⟩ | ⟨e1, e2⟩
        · refine Or.inl ⟨e, by omega, e2, e3, fun j j1 j2 => ?_⟩
          by_cases hj : j = s.current
          · rw [hj]; exact h2
          · exact e4 j (by omega) j2
        · refine Or.inr ⟨e1, fun j j1 => ?_⟩
          by_cases hj : j = s.current
          · rw [hj]; exact h2
          · exact e2 j (by omega)

/-! ## What one call of `scanToken` consumes -/

theorem newlines_slice_zero (src : List Byte) (a b : Nat)
    (h : ∀ j, a ≤ j → j < b → byteAt src j ≠ '\n'.toNat) : newlines (slice src a b) = 0 := by
  unfold newlines
  rw [List.count_eq_zero]
  intro hm
  obtain ⟨j, j1, j2, _, j4⟩ := mem_slice src a b _ hm
  exact h j j1 j2 j4

theorem punct_not_blank (c : Nat) (ty : TokenType) (h : punct c = some ty) :
    isBlank c = false := by
  unfold punct at h
  split_ifs at h
  all_goals first
    | exact Option.noConfusion h
    | (subst_vars; decide)

theorem isDigit_not_blank (c : Nat) (h : isDigit c = true) : isBlank c = false := by
  have := (isDigit_iff c).mp h
  simp [isBlank]
  omega

theorem isAlpha_not_blank (c : Nat) (h : isAlpha c = true) : isBlank c = false := by
  have := isAlpha_ge c h
  simp [isBlank]
  omega

theorem isAlphaNumeric_not_blank (c : Nat) (h : isAlphaNumeric c = true) :
    isBlank c = false := by
  simp only [isAlphaNumeric, Bool.or_eq_true] at h
  rcases h with h | h
  · exact isAlpha_not_blank c h
  · exact isDigit_not_blank c h

theorem isOther_not_blank (c : Nat) (h : isOther c) : isBlank c = false := by
  obtain ⟨_, _, _, o4, o5, o6, o7, _, _⟩ := h
  simp [isBlank]
  exact ⟨⟨⟨o4, o5⟩, o6⟩, o7⟩

/-- No byte of a token is a blank. -/
theorem lexeme_no_blank (src : List Byte) (a b : Nat) (ty : TokenType)
    (h : Lexeme src a b ty) (j : Nat) (j1 : a ≤ j) (j2 : j < b) :
    isBlank (byteAt src j) = false := by
  rcases h with ⟨hp, hb⟩ | ⟨hc, hn, hb, _⟩ | ⟨hc, _, hb, _⟩ | ⟨hc, _, hb, _⟩
    | ⟨_, hd, _, _⟩ | ⟨ha, _, hw, _, _⟩ | ⟨ho, hb, _⟩
  · have : j = a := by omega
    rw [this]; exact punct_not_blank _ _ hp
  · rcases (by omega : j = a ∨ j = a + 1) with e | e
    · rw [e, hc]; decide
    · rw [e, hn]; decide
  · have : j = a := by omega
    rw [this, hc]; decide
  · have : j = a := by omega
    rw [this, hc]; decide
  · exact isDigit_not_blank _ (hd j j1 j2)
  · by_cases e : j = a
    · rw [e]; exact isAlpha_not_blank _ ha
    · exact isAlphaNumeric_not_blank _ (hw j (by omega) j2)
  · have : j = a := by omega
    rw [this]; exact isOther_not_blank _ ho

theorem not_newline_of_not_blank (c : Nat) (h : isBlank c = false) : c ≠ '\n'.toNat := by
  intro e
  rw [e] at h
  exact absurd h (by decide)

theorem number_appends (f : Nat) (s s' : Scanner) (hs : s.current ≤ s.source.length)
    (h : number f s = Outcome.done s') : ∃ t, s'.tokens = s.tokens ++ [t] := by
  unfold number at h
  have hspec := numberLoop_spec f s hs
  cases hl : numberLoop f s with
  | panic => rw [hl] at h; exact Outcome.noConfusion h
  | fuelOut s1 => rw [hl] at h; exact Outcome.noConfusion h
  | done s1 =>
    rw [hl] at h hspec
    simp only [] at h
    rw [addToken_eq] at h
    split_ifs at h
    · have e := Outcome.done.inj h
      have ht : s1.tokens = s.tokens := by rw [hspec.1]
      rw [← e]
      exact ⟨_, congrArg (· ++ [_]) ht⟩
    · exact Outcome.noConfusion h

theorem identifier_appends (f : Nat) (s s' : Scanner) (hs : s.current ≤ s.source.length)
    (h : identifier f s = Outcome.done s') : ∃ t, s'.tokens = s.tokens ++ [t] := by
  unfold identifier at h
  have hspec := identifierLoop_spec f s hs
  cases hl : identifierLoop f s with
  | panic => rw [hl] at h; exact Outcome.noConfusion h
  | fuelOut s1 => rw [hl] at h; exact Outcome.noConfusion h
  | done s1 =>
    rw [hl] at h hspec
    simp only [] at h
    split_ifs at h
    · cases hk : keywords (List.take (s1.current - s1.start) (List.drop s1.start s1.source))
      all_goals
        rw [hk] at h
        simp only [] at h
        rw [addToken_eq] at h
        split_ifs at h
        have e := Outcome.done.inj h
        have ht : s1.tokens = s.tokens := by rw [hspec.1]
        rw [← e]
        exact ⟨_, congrArg (· ++ [_]) ht⟩

theorem append_singleton_ne (l : List Token) (t : Token) : l ++ [t] ≠ l := by
  intro h
  have := congrArg List.length h
  simp at this

theorem newlines_slice_one (src : List Byte) (a : Nat) (ha : a < src.length) :
    newlines (slice src a (a + 1)) = if byteAt src a = '\n'.toNat then 1 else 0 := by
  rw [newlines_slice_left src a (a + 1) (Nat.lt_succ_self a) ha, slice_self]
  simp [newlines]

theorem emitted_not_same (s s' : Scanner) (n : Nat) (ty : TokenType)
    (hst : s.start = s.current) (hn : s.current + n ≤ s.source.length)
    (h : Outcome.ofOption (addToken (s.skip n) ty) = Outcome.done s') :
    s'.tokens ≠ s.tokens := by
  rw [addToken_skip s n ty hst hn] at h
  rw [← Outcome.done.inj h]
  exact append_singleton_ne _ _

/-- One call of `scanToken`, in full: what `Stepped` says, the line goes up
by the number of newlines consumed, and a call that emits no token consumed
a blank or a comment. -/
theorem scanToken_step (f : Nat) (s s' : Scanner) (hst : s.start = s.current)
    (hlt : s.current < s.source.length) (h : scanToken f s = Outcome.done s') :
    Stepped s s'
      ∧ s'.line = s.line + newlines (slice s.source s.current s'.current)
      ∧ (s'.tokens = s.tokens → Silent s.source s.current s'.current) := by
  have hS : Stepped s s' := by
    have := scanToken_spec f s hst hlt
    rw [h] at this
    exact this
  refine ⟨hS, ?_⟩
  obtain ⟨a1, a2, a3, a4, a5⟩ := hS
  have h1 : s.current + 1 ≤ s.source.length := hlt
  rcases a5 with same | ⟨ty, app, hline, hlex⟩
  · have hr := reads_self s hlt
    rcases scanToken_cases (byteAt s.source s.current) (byteAt s.source (s.current + 1)) with
      ⟨ty, hp, e⟩ | ⟨hc, hn, e⟩ | ⟨hc, hn, e⟩ | ⟨hc, hn, e⟩ | ⟨hc, hn, e⟩ | ⟨hc, e⟩ | ⟨hc, e⟩
        | ⟨hc, e⟩ | ⟨hc, hd, e⟩ | ⟨hc, e⟩
    · rw [e f s hr] at h
      exact absurd same (emitted_not_same s s' 1 ty hst h1 h)
    · rw [e f s hr] at h
      exact absurd same (emitted_not_same s s' 2 _ hst
        (lt_of_byteAt_ne_zero (by rw [hn]; decide)) h)
    · rw [e f s hr] at h
      exact absurd same (emitted_not_same s s' 1 _ hst h1 h)
    · rw [e f s hr] at h
      have h2 : s.current + 2 ≤ s.source.length := lt_of_byteAt_ne_zero (by rw [hn]; decide)
      have hspec := comment_spec f (s.skip 2) h2
      have hline := comment_line f (s.skip 2) h2
      rw [h] at hspec hline
      obtain ⟨_, _, _, b4, _⟩ := hspec
      obtain ⟨c1, c2⟩ := hline
      simp only [Scanner.skip] at b4 c1 c2
      refine ⟨?_, fun _ => Or.inr ⟨hc, hn, c2⟩⟩
      rw [c1, newlines_slice_left s.source s.current s'.current (by omega) (by omega),
        newlines_slice_left s.source (s.current + 1) s'.current (by omega) (by omega), hc, hn]
      simp only [Nat.add_assoc]
      rfl
    · rw [e f s hr] at h
      exact absurd same (emitted_not_same s s' 1 _ hst h1 h)
    · rw [e f s hr] at h
      rw [← Outcome.done.inj h]
      have hb : isBlank (byteAt s.source s.current) = true := by
        rcases hc with hc | hc | hc <;> rw [hc] <;> decide
      have hnl : byteAt s.source s.current ≠ '\n'.toNat := by
        rcases hc with hc | hc | hc <;> rw [hc] <;> decide
      refine ⟨?_, fun _ => Or.inl ⟨rfl, hb⟩⟩
      simp only [Scanner.skip]
      rw [newlines_slice_one _ _ hlt, if_neg hnl]
      rfl
    · rw [e f s hr] at h
      rw [← Outcome.done.inj h]
      refine ⟨?_, fun _ => Or.inl ⟨rfl, by rw [hc]; decide⟩⟩
      simp only [Scanner.skip]
      rw [newlines_slice_one _ _ hlt, if_pos hc]
    · rw [e f s hr] at h
      obtain ⟨t, ht⟩ := number_appends f (s.skip 1) s' h1 h
      rw [same] at ht
      exact absurd ht.symm (append_singleton_ne _ _)
    · rw [e f s hr] at h
      obtain ⟨t, ht⟩ := identifier_appends f (s.skip 1) s' h1 h
      rw [same] at ht
      exact absurd ht.symm (append_singleton_ne _ _)
    · rw [e f s hr] at h
      exact absurd same (emitted_not_same s s' 1 _ hst h1 h)
  · refine ⟨?_, fun same => ?_⟩
    · rw [hline, newlines_slice_zero]
      · rfl
      · intro j j1 j2
        exact not_newline_of_not_blank _ (lexeme_no_blank _ _ _ _ hlex j j1 j2)
    · rw [same] at app
      exact absurd app.symm (append_singleton_ne _ _)

/-! ## Invariants of the main loop -/

/-- Loop rule for `scanLoop` in terms of `scanToken` itself: a property kept
by every call `scanToken` makes from the loop holds when the loop ends. -/
theorem scanLoop_inv (I : Scanner → Prop)
    (hI : ∀ f s s', I s → s.current < s.source.length →
      scanToken f { s with start := s.current } = Outcome.done s' → I s') :
    ∀ (f : Nat) (s s' : Scanner), I s → scanLoop f s = Outcome.done s' → I s'
  | 0, s, s', _, h => by simp [scanLoop] at h
  | f + 1, s, s', hi, h => by
    rw [scanLoop] at h
    split_ifs at h with he
    · rw [← Outcome.done.inj h]; exact hi
    · simp only [isAtEnd, decide_eq_true_eq, not_le] at he
      cases ht : scanToken f { s with start := s.current } with
      | panic => rw [ht] at h; exact Outcome.noConfusion h
      | fuelOut s1 => rw [ht] at h; exact Outcome.noConfusion h
      | done s1 =>
        rw [ht] at h
        exact scanLoop_inv I hI f s1 s' (hI f s s1 hi he ht) h

theorem take_append_slice (src : List Byte) (a b : Nat) (hab : a ≤ b) :
    src.take a ++ slice src a b = src.take b := by
  unfold slice
  obtain ⟨k, rfl⟩ : ∃ k, b = a + k := ⟨b - a, by omega⟩
  rw [Nat.add_sub_cancel_left, List.take_add]

theorem newlines_append (l1 l2 : List Byte) :
    newlines (l1 ++ l2) = newlines l1 + newlines l2 := by
  unfold newlines
  rw [List.count_append]

theorem newlines_take (src : List Byte) (a b : Nat) (hab : a ≤ b) :
    newlines (src.take b) = newlines (src.take a) + newlines (slice src a b) := by
  rw [← take_append_slice src a b hab, newlines_append]

/-- Two bytes in a row at an index make `hasPair` true. -/
theorem hasPair_of_byteAt (a b : Byte) : ∀ (l : List Byte) (j : Nat), j + 1 < l.length →
    byteAt l j = a.val → byteAt l (j + 1) = b.val → hasPair a b l = true
  | [], j, h, _, _ => by simp at h
  | [x], j, h, _, _ => by simp at h
  | x :: y :: rest, 0, _, h1, h2 => by
    rw [byteAt_cons_zero] at h1
    rw [byteAt_cons_succ, byteAt_cons_zero] at h2
    simp [hasPair, Fin.ext h1, Fin.ext h2]
  | x :: y :: rest, j + 1, h, h1, h2 => by
    rw [byteAt_cons_succ] at h1 h2
    have := hasPair_of_byteAt a b (y :: rest) j (by simpa using h) h1 h2
    simp [hasPair, this]

/-- A closer inside `pre ++ body ++ post` that lies within `body` is a `*/`
of `body`. -/
theorem not_closer_in_body (pre body post : List Byte)
    (hb : hasPair (byte '*') (byte '/') body = false) (j : Nat) (hj : j + 1 < body.length) :
    ¬ IsCloser (pre ++ (body ++ post)) (pre.length + j) := by
  rintro ⟨h1, h2⟩
  rw [byteAt_append_add, byteAt_append_left _ _ _ (by omega)] at h1
  rw [Nat.add_assoc, byteAt_append_add, byteAt_append_left _ _ _ hj] at h2
  have := hasPair_of_byteAt (byte '*') (byte '/') body j hj h1 h2
  rw [hb] at this
  exact Bool.noConfusion this

theorem byteAt_closer (post : List Byte) :
    byteAt (ascii "*/" ++ post) 0 = '*'.toNat ∧ byteAt (ascii "*/" ++ post) 1 = '/'.toNat := by
  have e : ascii "*/" ++ post = byte '*' :: byte '/' :: post := rfl
  rw [e, byteAt_cons_succ, byteAt_cons_zero, byteAt_cons_zero]
  exact ⟨rfl, rfl⟩

/-- In `pre ++ body ++ "*/" ++ post`, with no `*/` in `body`, the first
closer from the end of `pre` on is right after `body`. -/
theorem first_closer (pre body post : List Byte)
    (hb : hasPair (byte '*') (byte '/') body = false) :
    IsCloser (pre ++ (body ++ (ascii "*/" ++ post))) (pre.length + body.length)
      ∧ ∀ j, pre.length ≤ j → j < pre.length + body.length →
          ¬ IsCloser (pre ++ (body ++ (ascii "*/" ++ post))) j := by
  constructor
  · constructor
    · rw [byteAt_append_add, byteAt_append_length]; exact (byteAt_closer post).1
    · rw [Nat.add_assoc, byteAt_append_add]
      have := byteAt_append_add body (ascii "*/" ++ post) 1
      rw [this]; exact (byteAt_closer post).2
  · intro j j1 j2
    obtain ⟨i, rfl⟩ : ∃ i, j = pre.length + i := ⟨j - pre.length, by omega⟩
    by_cases hi : i + 1 < body.length
    · exact not_closer_in_body pre body _ hb i hi
    · have hi' : i + 1 = body.length := by omega
      rintro ⟨_, h2⟩
      rw [Nat.add_assoc, byteAt_append_add, hi', byteAt_append_length,
        (byteAt_closer post).1] at h2
      exact absurd h2 (by decide)

theorem commentEnd_closed (src : List Byte) (a b e : Nat) (h : CommentEnd src a b)
    (hae : a ≤ e) (he : IsCloser src e) (hmin : ∀ j, a ≤ j → j < e → ¬ IsCloser src j) :
    b = e + 2 := by
  rcases h with ⟨e', h1, h2, h3, h4⟩ | ⟨_, h2⟩
  · rcases Nat.lt_trichotomy e' e with h | h | h
    · exact absurd h3 (hmin e' h1 h)
    · rw [h2, h]
    · exact absurd he (h4 e hae h)
  · exact absurd he (h2 e hae)

theorem commentEnd_open (src : List Byte) (a b : Nat) (h : CommentEnd src a b)
    (hno : ∀ j, a ≤ j → ¬ IsCloser src j) : b = src.length := by
  rcases h with ⟨e', h1, _, h3, _⟩ | ⟨h1, _⟩
  · exact absurd h3 (hno e' h1)
  · exact h1

/-! ## Scanning a comment at the head of the source -/

/-- The first call of `scanToken` on a source that begins with `/*`: no
token, the cursor where the comment ends, the line raised by the newlines of
the comment. -/
theorem comment_token (src : List Byte) (b k : Nat) (h0 : byteAt src 0 = '/'.toNat)
    (h1 : byteAt src 1 = '*'.toNat) (hend : ∀ b', CommentEnd src 2 b' → b' = b)
    (hk : newlines (slice src 2 b) = k) :
    scanToken src.length (NewScanner src) = Outcome.done
      { source := src, tokens := [], start := 0, current := b, line := 1 + k } := by
  have h2 : 2 ≤ src.length := lt_of_byteAt_ne_zero (by rw [h1]; decide)
  have hr : Reads (NewScanner src) '/'.toNat '*'.toNat := ⟨by simp [NewScanner]; omega, h0, h1⟩
  rw [scanToken_comment _ _ hr]
  have hspec := comment_spec src.length ((NewScanner src).skip 2) h2
  have hline := comment_line src.length ((NewScanner src).skip 2) h2
  revert hspec hline
  cases comment src.length ((NewScanner src).skip 2) with
  | panic => exact fun hs _ => hs.elim
  | fuelOut s' =>
    rintro ⟨_, _, _, _, _, a6⟩ _
    simp [Scanner.skip, NewScanner] at a6
    omega
  | done s' =>
    rintro ⟨a1, a2, a3, _, _⟩ ⟨b1, b2⟩
    simp only [Scanner.skip, NewScanner, Nat.zero_add] at a1 a2 a3 b1 b2
    have hb := hend _ b2
    rw [hb, hk] at b1
    cases s'
    simp only [] at a1 a2 a3 b1 hb
    rw [a1, a2, a3, b1, hb]

theorem head_comment (rest : List Byte) :
    byteAt (ascii "/*" ++ rest) 0 = '/'.toNat ∧ byteAt (ascii "/*" ++ rest) 1 = '*'.toNat := by
  have e : ascii "/*" ++ rest = byte '/' :: byte '*' :: rest := rfl
  rw [e, byteAt_cons_succ, byteAt_cons_zero, byteAt_cons_zero]
  exact ⟨rfl, rfl⟩

theorem slice_middle (pre mid post : List Byte) :
    slice (pre ++ (mid ++ post)) pre.length (pre.length + mid.length) = mid := by
  have := slice_append_add pre (mid ++ post) 0 mid.length
  rw [Nat.add_zero] at this
  rw [this]
  exact slice_zero_length mid post

/-- A terminated comment at the head of the source. -/
theorem scan_closed_comment (body r : List Byte)
    (hb : hasPair (byte '*') (byte '/') body = false) :
    ∃ ts, scan r = some ts
      ∧ scan (ascii "/*" ++ body ++ ascii "*/" ++ r) = some (ts.map (bump (newlines body))) := by
  have esrc : ascii "/*" ++ body ++ ascii "*/" ++ r
      = ascii "/*" ++ (body ++ (ascii "*/" ++ r)) := by
    simp only [List.append_assoc]
  have esrc2 : ascii "/*" ++ body ++ ascii "*/" ++ r
      = ascii "/*" ++ ((body ++ ascii "*/") ++ r) := by
    simp only [List.append_assoc]
  have hfc := first_closer (ascii "/*") body r hb
  rw [← esrc] at hfc
  have hrun := comment_token (ascii "/*" ++ body ++ ascii "*/" ++ r)
    ((ascii "/*" ++ body ++ ascii "*/").length) (newlines body)
    (by rw [esrc]; exact (head_comment _).1) (by rw [esrc]; exact (head_comment _).2)
    (fun b' hb' => by
      have := commentEnd_closed _ 2 b' _ hb' (Nat.le_add_right _ _) hfc.1 hfc.2
      rw [this]
      simp only [List.length_append]
      rfl)
    (by
      have e2 : (ascii "/*" ++ body ++ ascii "*/").length
          = (ascii "/*").length + (body ++ ascii "*/").length := by
        simp only [List.length_append, Nat.add_assoc]
      have e3 : (2 : Nat) = (ascii "/*").length := rfl
      rw [e2, esrc2]
      conv => lhs; arg 1; arg 2; rw [e3]
      rw [slice_middle, newlines_append]
      rfl)
  obtain ⟨ts, t1, t2⟩ := scan_append (ascii "/*" ++ body ++ ascii "*/") r [] (newlines body) _
    (by simp [ascii]) hrun
  exact ⟨ts, t1, by rw [t2, List.nil_append]⟩

/-- An unterminated comment at the head of the source. -/
theorem scan_open_comment (body : List Byte)
    (hb : hasPair (byte '*') (byte '/') body = false) :
    scan (ascii "/*" ++ body) = some [eofToken (1 + newlines body)] := by
  have hno : ∀ j, 2 ≤ j → ¬ IsCloser (ascii "/*" ++ body) j := by
    intro j hj hc
    have hl := closer_lt _ _ hc
    obtain ⟨i, rfl⟩ : ∃ i, j = (ascii "/*").length + i := ⟨j - 2, by
      have : (ascii "/*").length = 2 := rfl
      omega⟩
    have hi : i + 1 < body.length := by
      have : (ascii "/*").length = 2 := rfl
      rw [List.length_append] at hl
      omega
    have := not_closer_in_body (ascii "/*") body [] hb i hi
    rw [List.append_nil] at this
    exact this hc
  have hrun := comment_token (ascii "/*" ++ body) (ascii "/*" ++ body).length (newlines body)
    (head_comment _).1 (head_comment _).2
    (fun b' hb' => commentEnd_open _ 2 b' hb' hno)
    (by
      have e := slice_middle (ascii "/*") body []
      rw [List.append_nil] at e
      have e3 : (2 : Nat) = (ascii "/*").length := rfl
      conv => lhs; arg 1; arg 2; rw [e3]
      rw [List.length_append, e])
  have hrun' : scanToken (ascii "/*" ++ body ++ []).length (NewScanner (ascii "/*" ++ body ++ []))
      = Outcome.done
        ⟨ascii "/*" ++ body ++ [], [], 0, (ascii "/*" ++ body).length, 1 + newlines body⟩ := by
    rw [List.append_nil]; exact hrun
  obtain ⟨ts, t1, t2⟩ := scan_append (ascii "/*" ++ body) [] [] (newlines body) _
    (by simp [ascii]) hrun'
  have h0 : scan ([] : List Byte) = some [eofToken 1] := by decide
  rw [h0] at t1
  rw [List.append_nil] at t2
  rw [t2, ← Option.some.inj t1]
  rfl

/-! ## Lines and texts of the tokens of a scan -/

/-- The state on which the loop of a scan ends. -/
theorem scanLoop_first (src : List Byte) :
    ∃ sL : Scanner, scanLoop (src.length + 1) (NewScanner src) = Outcome.done sL
      ∧ sL.source = src ∧ sL.current = src.length
      ∧ scan src = some (sL.tokens ++ [eofToken sL.line]) := by
  obtain ⟨sL, h1, h2, _, h4⟩ := scanLoop_done (src.length + 1) (NewScanner src)
    (inv_NewScanner src) (by simp [NewScanner])
  exact ⟨sL, h1, h2, h4, by simp [scan, ScanTokens, h1]⟩

/-- One call of `scanToken` from a state whose line counter is right: the
line counter stays right, and a token it appends carries the line of the
index where the call started. -/
theorem scanToken_lineOk (f : Nat) (s s' : Scanner) (hl : LineOk s)
    (hlt : s.current < s.source.length)
    (h : scanToken f { s with start := s.current } = Outcome.done s') :
    LineOk s' ∧ s'.source = s.source ∧ s.current < s'.current
      ∧ s'.current ≤ s.source.length
      ∧ (s'.tokens = s.tokens
        ∨ ∃ ty, s'.tokens = s.tokens ++ [⟨ty, slice s.source s.current s'.current,
            1 + newlines (s.source.take s.current)⟩]) := by
  obtain ⟨⟨a1, _, a3, a4, a5⟩, b, _⟩ := scanToken_step f { s with start := s.current } s' rfl hlt h
  simp only [] at a1 a3 a4 a5 b
  refine ⟨?_, a1, a3, a4, ?_⟩
  · unfold LineOk
    rw [a1, b, hl, newlines_take s.source s.current s'.current (Nat.le_of_lt a3), Nat.add_assoc]
  · rcases a5 with a5 | ⟨ty, a5, _, _⟩
    · exact Or.inl a5
    · exact Or.inr ⟨ty, by rw [a5, hl]⟩

/-- The line of every token of a scan, and of its final `EOF`. -/
theorem scan_lines (src : List Byte) :
    ∃ sL : Scanner, scan src = some (sL.tokens ++ [eofToken sL.line])
      ∧ sL.line = 1 + newlines src
      ∧ ∀ t ∈ sL.tokens, ∃ a b, a < b ∧ b ≤ src.length ∧ t.Value = slice src a b
          ∧ t.Line = 1 + newlines (src.take a) := by
  obtain ⟨sL, h1, h2, h3, h4⟩ := scanLoop_first src
  have hI := scanLoop_inv
    (fun s => LineOk s ∧ ∀ t ∈ s.tokens, ∃ a b, a < b ∧ b ≤ s.source.length
      ∧ t.Value = slice s.source a b ∧ t.Line = 1 + newlines (s.source.take a))
    (by
      rintro f s s' ⟨i1, i2⟩ hlt h
      obtain ⟨c1, c2, c3, c4, c5⟩ := scanToken_lineOk f s s' i1 hlt h
      refine ⟨c1, ?_⟩
      rw [c2]
      rcases c5 with c5 | ⟨ty, c5⟩
      · rw [c5]; exact i2
      · rw [c5]
        intro t ht
        rcases List.mem_append.mp ht with ht | ht
        · exact i2 t ht
        · rw [List.mem_singleton.mp ht]
          exact ⟨s.current, s'.current, c3, c4, rfl, rfl⟩)
    (src.length + 1) (NewScanner src) sL
    ⟨by simp [LineOk, NewScanner, newlines], by intro t ht; simp [NewScanner] at ht⟩ h1
  obtain ⟨j1, j2⟩ := hI
  unfold LineOk at j1
  rw [h2, h3, List.take_length] at j1
  rw [h2] at j2
  exact ⟨sL, h4, j1, j2⟩

/-- With no blank and no `/*` in the source, the texts of the tokens before
the final `EOF`, put end to end, are the source. -/
theorem scan_concat (src : List Byte) (hblank : ∀ b ∈ src, isBlank b.val = false)
    (hopen : hasPair (byte '/') (byte '*') src = false) :
    ∃ sL : Scanner, scan src = some (sL.tokens ++ [eofToken sL.line])
      ∧ (sL.tokens.map Token.Value).flatten = src := by
  obtain ⟨sL, h1, h2, h3, h4⟩ := scanLoop_first src
  have hI := scanLoop_inv
    (fun s => s.source = src → (s.tokens.map Token.Value).flatten = src.take s.current)
    (by
      intro f s s' hi hlt h hsrc
      obtain ⟨⟨a1, _, a3, a4, a5⟩, _, c⟩ :=
        scanToken_step f { s with start := s.current } s' rfl hlt h
      simp only [] at a1 a3 a4 a5 c
      have es : s.source = src := a1.symm.trans hsrc
      rcases a5 with a5 | ⟨ty, a5, _, _⟩
      · exfalso
        rcases c a5 with ⟨_, hb⟩ | ⟨c1, c2, _⟩
        · obtain ⟨b, bm, be⟩ := byteAt_mem s.source s.current hlt
          rw [be, hblank b (es ▸ bm)] at hb
          exact Bool.noConfusion hb
        · have hl : s.current + 1 < s.source.length :=
            lt_of_byteAt_ne_zero (by rw [c2]; decide)
          have := hasPair_of_byteAt (byte '/') (byte '*') s.source s.current hl c1 c2
          rw [es, hopen] at this
          exact Bool.noConfusion this
      · rw [a5, List.map_append, List.flatten_append, hi es, ← es]
        simp only [List.map_cons, List.map_nil, List.flatten_cons, List.flatten_nil,
          List.append_nil]
        exact take_append_slice s.source s.current s'.current (Nat.le_of_lt a3))
    (src.length + 1) (NewScanner src) sL (by intro _; simp [NewScanner]) h1
  refine ⟨sL, h4, ?_⟩
  rw [hI h2, h3, List.take_length]

set_option maxRecDepth 100000 in
theorem not_blank_byte : ∀ x : Byte, isBlank x.val = false → x ∉ ascii " \t\r\n" := by
  decide

set_option maxRecDepth 100000 in
theorem blank_byte : ∀ x : Byte, x ∉ ascii " \t\r\n" → isBlank x.val = false := by
  decide

set_option maxRecDepth 100000 in
/-- The text of a token of a scan is not empty and has no blank byte. -/
theorem scan_values (src : List Byte) :
    ∃ ts, scan src = some ts
      ∧ ∀ t ∈ ts, t.Value ≠ [] ∧ ∀ b ∈ t.Value, b ∉ ascii " \t\r\n" := by
  obtain ⟨s', h1, h2⟩ := scan_tokens src
  refine ⟨_, h1, fun t ht => ?_⟩
  rcases List.mem_append.mp ht with ht | ht
  · obtain ⟨a, b, hab, hb, hv, hl⟩ := h2 t ht
    rw [hv]
    constructor
    · intro he
      have := slice_length src a b hb
      rw [he] at this
      simp at this
      omega
    · intro x hx
      obtain ⟨j, j1, j2, _, j4⟩ := mem_slice src a b x hx
      apply not_blank_byte
      rw [← j4]
      exact lexeme_no_blank src a b _ hl j j1 j2
  · rw [List.mem_singleton.mp ht]
    have hv : (eofToken s'.line).Value = ascii "EOF" := rfl
    rw [hv]
    exact ⟨by decide, by decide⟩

/-! ## Sessions in a shared program state -/

theorem lookupKeyword_table (text : List Byte) :
    lookupKeyword keywordTable text = keywords text := rfl

theorem identifierK_table : identifierK keywordTable = identifier := by
  funext fuel s
  unfold identifierK identifier
  simp only [lookupKeyword_table]

theorem scanTokenK_table : scanTokenK keywordTable = scanToken := by
  funext fuel s
  unfold scanTokenK scanToken
  rw [identifierK_table]

theorem scanLoopK_table (fuel : Nat) (s : Scanner) :
    scanLoopK keywordTable fuel s = scanLoop fuel s := by
  induction fuel generalizing s with
  | zero => rfl
  | succ n ih =>
    unfold scanLoopK scanLoop
    rw [scanTokenK_table]
    by_cases h : isAtEnd s = true
    · simp only [h, if_true]
    · simp only [h, if_false]
      cases scanToken n { s with start := s.current } with
      | done s1 => exact ih s1
      | panic => rfl
      | fuelOut s1 => rfl

theorem ScanTokensK_table (fuel : Nat) (s : Scanner) :
    ScanTokensK keywordTable fuel s = ScanTokens fuel s := by
  unfold ScanTokensK ScanTokens
  rw [scanLoopK_table]

theorem ScanTokensW_keywords (fuel : Nat) (w : World) (p : Nat) :
    (ScanTokensW fuel w p).2.keywords = w.keywords := by
  unfold ScanTokensW
  split
  · rfl
  · split <;> rfl

theorem ScanTokensW_heap (fuel : Nat) (w : World) (p q : Nat) (h : q ≠ p) :
    (ScanTokensW fuel w p).2.heap[q]? = w.heap[q]? := by
  unfold ScanTokensW
  split
  · rfl
  · split
    · simp [List.getElem?_set, Ne.symm h]
    · rfl

theorem ScanTokensW_fst (fuel : Nat) (w : World) (p : Nat) (s : Scanner)
    (h : w.heap[p]? = some s) :
    (ScanTokensW fuel w p).1 = (ScanTokensK w.keywords fuel s).returned := by
  unfold ScanTokensW
  rw [h]
  simp only []
  cases ScanTokensK w.keywords fuel s <;> rfl

theorem sessionW_fst (fuel : Nat) (w : World) (src : List Byte) :
    (sessionW fuel w src).1 = (ScanTokensK w.keywords fuel (NewScanner src)).returned := by
  unfold sessionW
  exact ScanTokensW_fst fuel _ _ (NewScanner src) (by simp [NewScannerW])

theorem sessionW_keywords (fuel : Nat) (w : World) (src : List Byte) :
    (sessionW fuel w src).2.keywords = w.keywords := by
  unfold sessionW
  rw [ScanTokensW_keywords]
  rfl

theorem sessionW_heap (fuel : Nat) (w : World) (src : List Byte) (q : Nat)
    (h : q < w.heap.length) : (sessionW fuel w src).2.heap[q]? = w.heap[q]? := by
  unfold sessionW
  rw [ScanTokensW_heap _ _ _ _ (by simp only [NewScannerW]; omega)]
  simp only [NewScannerW]
  exact List.getElem?_append_left h

theorem Reachable.keywords_eq {w : World} (h : Reachable w) : w.keywords = keywordTable := by
  induction h with
  | start => rfl
  | newScanner w src _ ih => exact ih
  | scanTokens fuel w p _ ih => rw [ScanTokensW_keywords]; exact ih

theorem sessionW_reachable (fuel : Nat) (w : World) (src : List Byte) (hw : Reachable w)
    (hf : src.length < fuel) :
    ∃ ts : List Token, (sessionW fuel w src).1 = some ts ∧ scan src = some ts := by
  obtain ⟨sL, e1, _, _, e4, _⟩ := ScanTokens_first src fuel hf
  refine ⟨_, ?_, e4⟩
  rw [sessionW_fst, hw.keywords_eq, ScanTokensK_table, e1]
  rfl

/-! ## The claims -/

/-- C1: for every source the scan returns a non-empty sequence whose last
element is the token `EOF` with text `"EOF"` and none of whose other elements
has type `EOF`; the scan of the empty source is exactly that one token, on
line 1. -/
theorem C1_eof_last_and_only :
    (∀ src : List Byte, ∃ ts L, scan src = some (ts ++ [⟨EOF, ascii "EOF", L⟩])
      ∧ ∀ t ∈ ts, t.Typ ≠ EOF)
    ∧ scan (ascii "") = some [⟨EOF, ascii "EOF", 1⟩] := by
  refine ⟨fun src => ?_, by decide⟩
  obtain ⟨s', h1, h2⟩ := scan_tokens src
  refine ⟨s'.tokens, s'.line, h1, fun t ht => ?_⟩
  obtain ⟨a, b, _, _, _, hl⟩ := h2 t ht
  exact lexeme_ne_eof _ _ _ _ hl

/-- C2: the scan terminates.  With any fuel above `len(source)` the call
`NewScanner(source).ScanTokens()` finishes, with the same result as with fuel
`len(source) + 1`, the cursor at the end of the source.  Each call of
`scanToken` made by the main loop moves `current` strictly forward and not
past the end; one iteration of the loop of `comment`, `number` or `identifier`
either leaves the loop or moves `current` strictly forward, not past the
end. -/
theorem C2_scan_terminates :
    (∀ (src : List Byte) (f : Nat), src.length < f →
      ∃ s', ScanTokens f (NewScanner src) = Outcome.done s'
        ∧ ScanTokens (src.length + 1) (NewScanner src) = Outcome.done s'
        ∧ s'.current = src.length)
    ∧ (∀ (f : Nat) (s s' : Scanner), s.current < s.source.length →
        scanToken f { s with start := s.current } = Outcome.done s' →
        s.current < s'.current ∧ s'.current ≤ s.source.length)
    ∧ (∀ (f : Nat) (s : Scanner), s.current ≤ s.source.length →
        comment (f + 1) s = Outcome.done s
        ∨ ∃ s1 : Scanner, s.current < s1.current ∧ s1.current ≤ s.source.length
            ∧ s1.source = s.source
            ∧ (comment (f + 1) s = Outcome.done s1 ∨ comment (f + 1) s = comment f s1))
    ∧ (∀ (f : Nat) (s : Scanner), s.current ≤ s.source.length →
        numberLoop (f + 1) s = Outcome.done s
        ∨ ∃ s1 : Scanner, s1.current = s.current + 1 ∧ s1.current ≤ s.source.length
            ∧ s1.source = s.source ∧ numberLoop (f + 1) s = numberLoop f s1)
    ∧ (∀ (f : Nat) (s : Scanner), s.current ≤ s.source.length →
        identifierLoop (f + 1) s = Outcome.done s
        ∨ ∃ s1 : Scanner, s1.current = s.current + 1 ∧ s1.current ≤ s.source.length
            ∧ s1.source = s.source ∧ identifierLoop (f + 1) s = identifierLoop f s1) := by
  refine ⟨ScanTokens_done, ?_, ?_, ?_, ?_⟩
  · intro f s s' hlt h
    have hs := scanToken_spec f { s with start := s.current } rfl hlt
    rw [h] at hs
    exact ⟨hs.2.2.1, hs.2.2.2.1⟩
  · intro f s _
    rw [comment_succ]
    split_ifs with h1 h2
    · exact Or.inl rfl
    · have hl : s.current + 1 < s.source.length :=
        lt_of_byteAt_ne_zero (by rw [h2.2]; decide)
      exact Or.inr ⟨{ s with current := s.current + 2 }, by simp, by simp; omega, rfl,
        Or.inl rfl⟩
    · exact Or.inr ⟨{ s with current := s.current + 1, line := s.line + 1 }, by simp,
        by simp; omega, rfl, Or.inr rfl⟩
    · exact Or.inr ⟨{ s with current := s.current + 1, line := s.line }, by simp,
        by simp; omega, rfl, Or.inr rfl⟩
  · intro f s _
    rw [numberLoop_succ]
    split_ifs with h1
    · exact Or.inr ⟨{ s with current := s.current + 1 }, rfl, lt_of_isDigit h1, rfl, rfl⟩
    · exact Or.inl rfl
  · intro f s _
    rw [identifierLoop_succ]
    split_ifs with h1
    · exact Or.inr ⟨{ s with current := s.current + 1 }, rfl, lt_of_isAlphaNumeric h1, rfl,
        rfl⟩
    · exact Or.inl rfl

/-- C3: the scan never panics.  Whatever the fuel, a scan started by
`NewScanner` does not end in a panic, and the state it reaches (finished, or
stopped inside any of the loops when the fuel is gone) satisfies
`start <= current <= len(source)`; the same holds of `scanToken`, `comment`,
`number` and `identifier` entered within these bounds.  When the next two
bytes close a comment, the two `advance` calls both succeed and leave
`current` within the source. -/
theorem C3_scan_never_panics :
    (∀ (src : List Byte) (fuel : Nat), (ScanTokens fuel (NewScanner src)).Holds Inv Inv)
    ∧ (∀ (fuel : Nat) (s : Scanner), Inv s → (ScanTokens fuel s).Holds Inv Inv)
    ∧ (∀ (fuel : Nat) (s : Scanner), s.current < s.source.length →
        (scanToken fuel { s with start := s.current }).Holds Inv Inv)
    ∧ (∀ (fuel : Nat) (s : Scanner), Inv s → (comment fuel s).Holds Inv Inv)
    ∧ (∀ (fuel : Nat) (s : Scanner), Inv s → (number fuel s).Holds Inv Inv)
    ∧ (∀ (fuel : Nat) (s : Scanner), Inv s → (identifier fuel s).Holds Inv Inv)
    ∧ (∀ s : Scanner, Inv s → Reads s '*'.toNat '/'.toNat →
        ∃ c1 s1 c2 s2, advance s = some (c1, s1) ∧ advance s1 = some (c2, s2)
          ∧ Inv s2 ∧ s2.current = s.current + 2) := by
  refine ⟨fun src fuel => ScanTokens_safe fuel _ (inv_NewScanner src),
    fun fuel s h => ScanTokens_safe fuel s h, scanToken_safe, comment_safe, number_safe,
    identifier_safe, ?_⟩
  rintro s hinv ⟨h1, _, h3⟩
  have hl : s.current + 1 < s.source.length := lt_of_byteAt_ne_zero (by rw [h3]; decide)
  refine ⟨byteAt s.source s.current, { s with current := s.current + 1 },
    byteAt s.source (s.current + 1), { s with current := s.current + 1 + 1 }, ?_, ?_, ?_, rfl⟩
  · rw [advance_eq, if_pos h1]
  · rw [advance_eq]; simp only []; rw [if_pos hl]
  · exact ⟨Nat.le_trans hinv.1 (by simp only []; omega), hl⟩

/-- C4: each of the eight one-character operators and delimiters at the
head of the source is scanned as one token of its category, with that one
character as text, on line 1, followed by the scan of the rest; so is `/`
(as `DIV`) when the rest does not begin with `*`.  The scan of
`"+ - * / = < ( ) ; :="` is the eleven tokens of the test table. -/
theorem C4_single_char_operators :
    (∀ (c : Char) (ty : TokenType),
      (c, ty) ∈ [('(', OPENBRACKET), (')', CLOSEDBRACKET), (';', SEMICOLON), ('+', PLUS),
        ('-', MINUS), ('*', MULT), ('<', LESSTHAN), ('=', EQUAL)] →
      ∀ r : List Byte, ∃ ts, scan r = some ts
        ∧ scan (byte c :: r) = some (⟨ty, [byte c], 1⟩ :: ts))
    ∧ (∀ r : List Byte, r.head? ≠ some (byte '*') →
        ∃ ts, scan r = some ts ∧ scan (byte '/' :: r) = some (⟨DIV, [byte '/'], 1⟩ :: ts))
    ∧ scan (ascii "+ - * / = < ( ) ; :=") = some
        [⟨PLUS, ascii "+", 1⟩, ⟨MINUS, ascii "-", 1⟩, ⟨MULT, ascii "*", 1⟩,
          ⟨DIV, ascii "/", 1⟩, ⟨EQUAL, ascii "=", 1⟩, ⟨LESSTHAN, ascii "<", 1⟩,
          ⟨OPENBRACKET, ascii "(", 1⟩, ⟨CLOSEDBRACKET, ascii ")", 1⟩,
          ⟨SEMICOLON, ascii ";", 1⟩, ⟨ASSIGN, ascii ":=", 1⟩, ⟨EOF, ascii "EOF", 1⟩] := by
  refine ⟨?_, ?_, by decide⟩
  · intro c ty hm r
    have hp : punct (byte c).val = some ty := by
      simp only [List.mem_cons, Prod.mk.injEq, List.mem_singleton, List.not_mem_nil,
        or_false] at hm
      rcases hm with ⟨h, e⟩ | ⟨h, e⟩ | ⟨h, e⟩ | ⟨h, e⟩ | ⟨h, e⟩ | ⟨h, e⟩ | ⟨h, e⟩ | ⟨h, e⟩
        <;> subst h <;> subst e <;> decide
    exact scan_cons_token _ r ty 0 (scanToken_punct 0 _ _ _ ty (reads_NewScanner _ r) hp)
  · intro r hr
    have hn : byteAt r 0 ≠ '*'.toNat := byteAt_zero_ne r (byte '*') (by decide) hr
    exact scan_cons_token _ r DIV 0
      (scanToken_div 0 _ _ (reads_NewScanner (byte '/') r) hn)

/-- C5: `:=` at the head of the source is scanned as one `ASSIGN` token
with text `:=`; a `:` whose next byte is not `=` (or that ends the source) is
scanned as `ILLEGAL` with text `:`, and the byte after it is scanned as the
start of the rest.  The scan of `":x"` is `ILLEGAL ":"`, `IDENTIFIER "x"`,
`EOF`. -/
theorem C5_colon_dispatch :
    (∀ r : List Byte, ∃ ts, scan r = some ts
      ∧ scan (ascii ":=" ++ r) = some (⟨ASSIGN, ascii ":=", 1⟩ :: ts))
    ∧ (∀ r : List Byte, r.head? ≠ some (byte '=') →
        ∃ ts, scan r = some ts ∧ scan (byte ':' :: r) = some (⟨ILLEGAL, [byte ':'], 1⟩ :: ts))
    ∧ scan (ascii ":x") = some
        [⟨ILLEGAL, ascii ":", 1⟩, ⟨IDENTIFIER, ascii "x", 1⟩, ⟨EOF, ascii "EOF", 1⟩] := by
  refine ⟨?_, ?_, by decide⟩
  · intro r
    have e : ascii ":=" = [58, 61] := by decide
    rw [e]
    have hr : Reads (NewScanner ([58, 61] ++ r)) ':'.toNat '='.toNat :=
      ⟨by simp [NewScanner], by simp [NewScanner, byteAt]; rfl,
        by simp [NewScanner, byteAt]; rfl⟩
    have h := scanToken_assign 0 _ hr
    rw [addToken_skip _ 2 ASSIGN rfl (by simp [NewScanner])] at h
    have h' : scanToken 0 (NewScanner ([58, 61] ++ r)) = Outcome.done
        { source := [58, 61] ++ r, tokens := [⟨ASSIGN, [58, 61], 1⟩], start := 0,
          current := ([58, 61] : List Byte).length, line := 1 + 0 } := by
      rw [h]
      simp [Outcome.ofOption, Scanner.skip, NewScanner, slice]
    obtain ⟨ts, h1, h2⟩ := scan_append [58, 61] r _ 0 0 (by decide) h'
    rw [bump_zero] at h2
    exact ⟨ts, h1, h2⟩
  · intro r hr
    have hn : byteAt r 0 ≠ '='.toNat := byteAt_zero_ne r (byte '=') (by decide) hr
    exact scan_cons_token _ r ILLEGAL 0
      (scanToken_colon 0 _ _ (reads_NewScanner (byte ':') r) hn)

/-- C6: a word `w` (an ASCII letter followed by ASCII letters and digits)
at the head of the source, followed by a rest that is empty or begins with an
ASCII character that is neither letter nor digit, is scanned whole as one
token on line 1, followed by the scan of the rest; its category is the keyword
category when `w` is one of the seven reserved spellings and `IDENTIFIER`
otherwise.  The scan of `"if iffy"` is `IF "if"`, `IDENTIFIER "iffy"`,
`EOF`. -/
theorem C6_greedy_identifier :
    (∀ (l : Byte) (ws r : List Byte), isAsciiLetter l = true →
      (∀ b ∈ ws, isAsciiLetter b = true ∨ isAsciiDigit b = true) →
      (∀ b, r.head? = some b →
        b.val < 128 ∧ isAsciiLetter b = false ∧ isAsciiDigit b = false) →
      ∃ ts, scan r = some ts
        ∧ scan (l :: ws ++ r) = some (⟨wordCategory (l :: ws), l :: ws, 1⟩ :: ts))
    ∧ scan (ascii "if iffy") = some
        [⟨IF, ascii "if", 1⟩, ⟨IDENTIFIER, ascii "iffy", 1⟩, ⟨EOF, ascii "EOF", 1⟩] := by
  refine ⟨?_, by decide⟩
  intro l ws r hl hws hr
  have hrun := identifier_run (l :: ws) r (by simp)
    (by rw [byteAt_cons_zero]; exact isAlpha_of_ascii l hl)
    (by
      intro b hb
      rcases List.mem_cons.mp hb with e | hb
      · rw [e]; simp [isAlphaNumeric, isAlpha_of_ascii l hl]
      · rcases hws b hb with h | h
        · simp [isAlphaNumeric, isAlpha_of_ascii b h]
        · simp [isAlphaNumeric, isDigit_of_ascii, h])
    (byteAt_zero_head isAlphaNumeric r (by decide)
      (fun b hb => not_alnum_of_ascii b (hr b hb).1 (hr b hb).2.1 (hr b hb).2.2))
  obtain ⟨ts, h1, h2⟩ := scan_append (l :: ws) r _ 0 _ (by simp) hrun
  rw [bump_zero, ← wordCategory_eq] at h2
  exact ⟨ts, h1, h2⟩

set_option maxRecDepth 100000 in
/-- C6 at the words `if`, `iffy` and `x1` before the rests `" iffy"`, `""`
and `";"`. -/
theorem C6_greedy_identifier_witness :
    (∃ ts, scan (ascii " iffy") = some ts
      ∧ scan (byte 'i' :: ascii "f" ++ ascii " iffy") = some (⟨IF, ascii "if", 1⟩ :: ts))
    ∧ (∃ ts, scan (ascii "") = some ts
      ∧ scan (byte 'i' :: ascii "ffy" ++ ascii "")
        = some (⟨IDENTIFIER, ascii "iffy", 1⟩ :: ts))
    ∧ (∃ ts, scan (ascii ";") = some ts
      ∧ scan (byte 'x' :: ascii "1" ++ ascii ";")
        = some (⟨IDENTIFIER, ascii "x1", 1⟩ :: ts)) :=
  ⟨C6_greedy_identifier.1 (byte 'i') (ascii "f") (ascii " iffy") (by decide) (by decide)
      (by decide),
    C6_greedy_identifier.1 (byte 'i') (ascii "ffy") (ascii "") (by decide) (by decide)
      (by decide),
    C6_greedy_identifier.1 (byte 'x') (ascii "1") (ascii ";") (by decide) (by decide)
      (by decide)⟩

/-- C7: in the scan of any source, a token has one of the seven keyword
categories exactly when its text is one of the seven lowercase spellings, and
then its category is the one the table `keywords` gives that spelling (`if`
to `IF`, `then` to `THEN`, `end` to `END`, `repeat` to `REPEAT`, `until` to
`UNTIL`, `read` to `READ`, `write` to `WRITE`); so no `IDENTIFIER` token has
a reserved spelling as text.  The lookup is case-sensitive: the scan of
`"IF"` is `IDENTIFIER "IF"`, `EOF`. -/
theorem C7_keyword_iff_spelling :
    (∀ src : List Byte, ∃ ts, scan src = some ts
      ∧ ∀ t ∈ ts, (t.Typ ∈ keywordTypes ↔ t.Value ∈ keywordSpellings)
          ∧ (t.Value ∈ keywordSpellings → keywords t.Value = some t.Typ)
          ∧ (t.Typ = IDENTIFIER → t.Value ∉ keywordSpellings))
    ∧ (keywords (ascii "if") = some IF ∧ keywords (ascii "then") = some THEN
        ∧ keywords (ascii "end") = some END ∧ keywords (ascii "repeat") = some REPEAT
        ∧ keywords (ascii "until") = some UNTIL ∧ keywords (ascii "read") = some READ
        ∧ keywords (ascii "write") = some WRITE)
    ∧ scan (ascii "IF") = some [⟨IDENTIFIER, ascii "IF", 1⟩, ⟨EOF, ascii "EOF", 1⟩] := by
  refine ⟨?_, by decide, by decide⟩
  intro src
  obtain ⟨s', h1, h2⟩ := scan_tokens src
  refine ⟨_, h1, ?_⟩
  intro t ht
  have hok : KeywordOk t := by
    rcases List.mem_append.mp ht with ht | ht
    · obtain ⟨a, b, hab, hb, hv, hl⟩ := h2 t ht
      have := lexeme_keywordOk src a b t.Typ t.Line hab hb hl
      rw [← hv] at this
      exact this
    · rw [List.mem_singleton.mp ht]
      exact keywordOk_of_not _ _ _ (by decide) (by decide)
  refine ⟨hok.1, hok.2, fun hty hm => ?_⟩
  have := hok.1.mpr hm
  rw [hty] at this
  exact absurd this (by decide)

/-- C8: a non-empty run `d` of ASCII digits at the head of the source,
followed by a rest that is empty or does not begin with a digit, is scanned
whole as one `NUMBER` token on line 1, followed by the scan of the rest.  The
scan of `"12.5"` is `NUMBER "12"`, `ILLEGAL "."`, `NUMBER "5"`, `EOF`.  In the
scan of any source, the text of every `NUMBER` token is non-empty and made of
digits only. -/
theorem C8_greedy_number :
    (∀ (d r : List Byte), d ≠ [] → (∀ b ∈ d, isAsciiDigit b = true) →
      (∀ b, r.head? = some b → isAsciiDigit b = false) →
      ∃ ts, scan r = some ts ∧ scan (d ++ r) = some (⟨NUMBER, d, 1⟩ :: ts))
    ∧ scan (ascii "12.5") = some
        [⟨NUMBER, ascii "12", 1⟩, ⟨ILLEGAL, ascii ".", 1⟩, ⟨NUMBER, ascii "5", 1⟩,
          ⟨EOF, ascii "EOF", 1⟩]
    ∧ (∀ src : List Byte, ∃ ts, scan src = some ts
        ∧ ∀ t ∈ ts, t.Typ = NUMBER → t.Value ≠ [] ∧ ∀ b ∈ t.Value, isAsciiDigit b = true) := by
  refine ⟨?_, by decide, ?_⟩
  · intro d r hd hall hr
    have hrun := number_run d r hd hall (byteAt_zero_head isDigit r (by decide) hr)
    obtain ⟨ts, h1, h2⟩ := scan_append d r _ 0 _ hd hrun
    rw [bump_zero] at h2
    exact ⟨ts, h1, h2⟩
  · intro src
    obtain ⟨s', h1, h2⟩ := scan_tokens src
    refine ⟨_, h1, ?_⟩
    intro t ht hty
    rcases List.mem_append.mp ht with ht | ht
    · obtain ⟨a, b, hab, hb, hv, hl⟩ := h2 t ht
      rw [hty] at hl
      have hdig := lexeme_number src a b hl
      rw [hv]
      constructor
      · intro he
        have := slice_length src a b hb
        rw [he] at this
        simp at this
        omega
      · intro x hx
        obtain ⟨j, j1, j2, _, j4⟩ := mem_slice src a b x hx
        rw [← isDigit_of_ascii, ← j4]
        exact hdig j j1 j2
    · rw [List.mem_singleton.mp ht] at hty
      exact TokenType.noConfusion hty

set_option maxRecDepth 100000 in
/-- C8 at the runs `12` and `10` before the rests `".5"` and `";"`. -/
theorem C8_greedy_number_witness :
    (∃ ts, scan (ascii ".5") = some ts
      ∧ scan (ascii "12" ++ ascii ".5") = some (⟨NUMBER, ascii "12", 1⟩ :: ts))
    ∧ (∃ ts, scan (ascii ";") = some ts
      ∧ scan (ascii "10" ++ ascii ";") = some (⟨NUMBER, ascii "10", 1⟩ :: ts)) :=
  ⟨C8_greedy_number.1 (ascii "12") (ascii ".5") (by decide) (by decide) (by decide),
    C8_greedy_number.1 (ascii "10") (ascii ";") (by decide) (by decide) (by decide)⟩

/-- C9: an ASCII character that is not a letter, not a digit, not one of
`( ) ; + - * < = : /` and not a space, tab, carriage return or newline is
scanned as one `ILLEGAL` token with that character as text, on line 1,
followed by the scan of the rest. -/
theorem C9_unrecognised_is_illegal (c : Byte) (r : List Byte) (hascii : c.val < 128)
    (hletter : isAsciiLetter c = false) (hdigit : isAsciiDigit c = false)
    (hpunct : c ∉ ascii "();+-*<=:/") (hblank : c ∉ ascii " \t\r\n") :
    ∃ ts, scan r = some ts ∧ scan (c :: r) = some (⟨ILLEGAL, [c], 1⟩ :: ts) :=
  scan_cons_token c r ILLEGAL 0
    (scanToken_other 0 _ _ _ (reads_NewScanner c r)
      (isOther_of_ascii c hascii hletter hdigit hpunct hblank))

/-- C9 at `'.'`, `'_'`, `'!'`, `'{'` and form feed, each before the rest
`"5"`. -/
theorem C9_unrecognised_is_illegal_witness :
    (∃ ts, scan (ascii "5") = some ts
      ∧ scan (byte '.' :: ascii "5") = some (⟨ILLEGAL, [byte '.'], 1⟩ :: ts))
    ∧ (∃ ts, scan (ascii "5") = some ts
      ∧ scan (byte '_' :: ascii "5") = some (⟨ILLEGAL, [byte '_'], 1⟩ :: ts))
    ∧ (∃ ts, scan (ascii "5") = some ts
      ∧ scan (byte '!' :: ascii "5") = some (⟨ILLEGAL, [byte '!'], 1⟩ :: ts))
    ∧ (∃ ts, scan (ascii "5") = some ts
      ∧ scan (byte '{' :: ascii "5") = some (⟨ILLEGAL, [byte '{'], 1⟩ :: ts))
    ∧ (∃ ts, scan (ascii "5") = some ts
      ∧ scan (byte '\x0c' :: ascii "5") = some (⟨ILLEGAL, [byte '\x0c'], 1⟩ :: ts)) :=
  ⟨C9_unrecognised_is_illegal (byte '.') (ascii "5") (by decide) (by decide) (by decide)
      (by decide) (by decide),
    C9_unrecognised_is_illegal (byte '_') (ascii "5") (by decide) (by decide) (by decide)
      (by decide) (by decide),
    C9_unrecognised_is_illegal (byte '!') (ascii "5") (by decide) (by decide) (by decide)
      (by decide) (by decide),
    C9_unrecognised_is_illegal (byte '{') (ascii "5") (by decide) (by decide) (by decide)
      (by decide) (by decide),
    C9_unrecognised_is_illegal (byte '\x0c') (ascii "5") (by decide) (by decide) (by decide)
      (by decide) (by decide)⟩

/-- C10: a run `w` of spaces, tabs, carriage returns and newlines before a
rest `r` produces no token; the scan of `w ++ r` is the scan of `r` with the
line of every token, the final `EOF` included, increased by the number of
newlines in `w`, category and text unchanged.  The scan of `w` alone is the
one token `EOF` on line `1 +` that number. -/
theorem C10_whitespace_skipped :
    (∀ (w r : List Byte), (∀ b ∈ w, b ∈ ascii " \t\r\n") →
      ∃ ts, scan r = some ts
        ∧ scan (w ++ r) = some (ts.map
            (fun t => { Typ := t.Typ, Value := t.Value,
                        Line := t.Line + w.count (byte '\n') })))
    ∧ (∀ w : List Byte, (∀ b ∈ w, b ∈ ascii " \t\r\n") →
        scan w = some [⟨EOF, ascii "EOF", 1 + w.count (byte '\n')⟩]) := by
  refine ⟨fun w r hw => scan_blanks w r hw, fun w hw => ?_⟩
  obtain ⟨ts, h1, h2⟩ := scan_blanks w [] hw
  have h0 : scan ([] : List Byte) = some [eofToken 1] := by decide
  rw [h0] at h1
  rw [List.append_nil] at h2
  rw [h2, ← Option.some.inj h1]
  rfl

set_option maxRecDepth 100000 in
/-- C10 at the blanks `" \n\t\n"` before `"x"` and alone. -/
theorem C10_whitespace_skipped_witness :
    (∃ ts, scan (ascii "x") = some ts
      ∧ scan (ascii " \n\t\n" ++ ascii "x") = some (ts.map
          (fun t => { Typ := t.Typ, Value := t.Value, Line := t.Line + 2 })))
    ∧ scan (ascii " \n\t\n") = some [⟨EOF, ascii "EOF", 3⟩] :=
  ⟨C10_whitespace_skipped.1 (ascii " \n\t\n") (ascii "x") (by decide),
    C10_whitespace_skipped.2 (ascii " \n\t\n") (by decide)⟩

/-- C11: a terminated block comment produces no token and is closed by the
first `*/` after its opening.  For every `body` that does not contain `*/`
and every rest `r`, the scan of `"/*" ++ body ++ "*/" ++ r` is the scan of
`r` with the line of every token, the final `EOF` included, increased by the
number of newlines in `body`, category and text unchanged.  Evaluated on the
empty body, on bodies that begin with `/` or end with `*`, on a body with a
newline, and on a source with a second `*/` after the first. -/
theorem C11_closed_comment_skipped :
    (∀ (body r : List Byte), hasPair (byte '*') (byte '/') body = false →
      ∃ ts, scan r = some ts
        ∧ scan (ascii "/*" ++ body ++ ascii "*/" ++ r) = some (ts.map
            (fun t => { Typ := t.Typ, Value := t.Value, Line := t.Line + newlines body })))
    ∧ scan (ascii "/**/x") = some [⟨IDENTIFIER, ascii "x", 1⟩, ⟨EOF, ascii "EOF", 1⟩]
    ∧ scan (ascii "/*/*/x") = some [⟨IDENTIFIER, ascii "x", 1⟩, ⟨EOF, ascii "EOF", 1⟩]
    ∧ scan (ascii "/***/x") = some [⟨IDENTIFIER, ascii "x", 1⟩, ⟨EOF, ascii "EOF", 1⟩]
    ∧ scan (ascii "/*a\nb*/x") = some [⟨IDENTIFIER, ascii "x", 2⟩, ⟨EOF, ascii "EOF", 2⟩]
    ∧ scan (ascii "/*a*/b*/") = some
        [⟨IDENTIFIER, ascii "b", 1⟩, ⟨MULT, ascii "*", 1⟩, ⟨DIV, ascii "/", 1⟩,
          ⟨EOF, ascii "EOF", 1⟩] := by
  refine ⟨fun body r hb => scan_closed_comment body r hb, by decide, by decide, by decide,
    by decide, by decide⟩

/-- C11 at the bodies `""`, `"/"`, `"*"` and `"a\nb\n"` before the rest
`"x"`. -/
theorem C11_closed_comment_skipped_witness :
    (∃ ts, scan (ascii "x") = some ts
      ∧ scan (ascii "/*" ++ ascii "" ++ ascii "*/" ++ ascii "x") = some (ts.map
          (fun t => { Typ := t.Typ, Value := t.Value, Line := t.Line + 0 })))
    ∧ (∃ ts, scan (ascii "x") = some ts
      ∧ scan (ascii "/*" ++ ascii "/" ++ ascii "*/" ++ ascii "x") = some (ts.map
          (fun t => { Typ := t.Typ, Value := t.Value, Line := t.Line + 0 })))
    ∧ (∃ ts, scan (ascii "x") = some ts
      ∧ scan (ascii "/*" ++ ascii "*" ++ ascii "*/" ++ ascii "x") = some (ts.map
          (fun t => { Typ := t.Typ, Value := t.Value, Line := t.Line + 0 })))
    ∧ (∃ ts, scan (ascii "x") = some ts
      ∧ scan (ascii "/*" ++ ascii "a\nb\n" ++ ascii "*/" ++ ascii "x") = some (ts.map
          (fun t => { Typ := t.Typ, Value := t.Value, Line := t.Line + 2 }))) :=
  ⟨C11_closed_comment_skipped.1 (ascii "") (ascii "x") (by decide),
    C11_closed_comment_skipped.1 (ascii "/") (ascii "x") (by decide),
    C11_closed_comment_skipped.1 (ascii "*") (ascii "x") (by decide),
    C11_closed_comment_skipped.1 (ascii "a\nb\n") (ascii "x") (by decide)⟩

/-- C12: an unterminated block comment swallows the rest of the input.  For
every `body` that does not contain `*/`, the scan of `"/*" ++ body` is the
single token `EOF` on line `1 +` the number of newlines in `body`: no token
stands for the comment and the scan does not fail. -/
theorem C12_open_comment_swallows_rest :
    (∀ body : List Byte, hasPair (byte '*') (byte '/') body = false →
      scan (ascii "/*" ++ body) = some [⟨EOF, ascii "EOF", 1 + newlines body⟩])
    ∧ scan (ascii "/*") = some [⟨EOF, ascii "EOF", 1⟩]
    ∧ scan (ascii "/* x := 1;\n y *") = some [⟨EOF, ascii "EOF", 2⟩]
    ∧ scan (ascii "x /*/") = some [⟨IDENTIFIER, ascii "x", 1⟩, ⟨EOF, ascii "EOF", 1⟩] := by
  refine ⟨fun body hb => scan_open_comment body hb, by decide, by decide, by decide⟩

/-- C12 at the bodies `""`, `"/"` and `" x := 1;\n y *"`. -/
theorem C12_open_comment_swallows_rest_witness :
    scan (ascii "/*" ++ ascii "") = some [⟨EOF, ascii "EOF", 1 + 0⟩]
    ∧ scan (ascii "/*" ++ ascii "/") = some [⟨EOF, ascii "EOF", 1 + 0⟩]
    ∧ scan (ascii "/*" ++ ascii " x := 1;\n y *") = some [⟨EOF, ascii "EOF", 1 + 1⟩] :=
  ⟨C12_open_comment_swallows_rest.1 (ascii "") (by decide),
    C12_open_comment_swallows_rest.1 (ascii "/") (by decide),
    C12_open_comment_swallows_rest.1 (ascii " x := 1;\n y *") (by decide)⟩

/-- C13: the line recorded in a token is 1 plus the number of newlines in
`source[0:start]`.  The line counter of a fresh scanner is right (1, with no
byte before the cursor); a call of `scanToken` made by the loop from a state
whose line counter is right leaves it right, whether the bytes consumed are a
token, blanks or a comment, and a token it appends has the bytes from the
start index on as text and 1 plus the number of newlines before the start
index as line.  So every token of a scan has such a start index.  In the test
input `read`, `x`, `;` are on line 2 and `write`, `x` on line 5. -/
theorem C13_token_line :
    (∀ src : List Byte, LineOk (NewScanner src))
    ∧ (∀ (f : Nat) (s s' : Scanner),
        s.line = 1 + newlines (s.source.take s.current) → s.current < s.source.length →
        scanToken f { s with start := s.current } = Outcome.done s' →
        s'.line = 1 + newlines (s'.source.take s'.current)
          ∧ (s'.tokens = s.tokens
            ∨ ∃ ty, s'.tokens = s.tokens ++ [⟨ty, slice s.source s.current s'.current,
                1 + newlines (s.source.take s.current)⟩]))
    ∧ (∀ src : List Byte, ∃ ts L, scan src = some (ts ++ [⟨EOF, ascii "EOF", L⟩])
        ∧ ∀ t ∈ ts, ∃ a b, a < b ∧ b ≤ src.length ∧ t.Value = slice src a b
            ∧ t.Line = 1 + newlines (src.take a))
    ∧ scan (ascii "\nread x;\n/* this is a\n   multi-line comment */\nwrite x\n") = some
        [⟨READ, ascii "read", 2⟩, ⟨IDENTIFIER, ascii "x", 2⟩, ⟨SEMICOLON, ascii ";", 2⟩,
          ⟨WRITE, ascii "write", 5⟩, ⟨IDENTIFIER, ascii "x", 5⟩, ⟨EOF, ascii "EOF", 6⟩] := by
  refine ⟨fun src => by simp [LineOk, NewScanner, newlines], ?_, ?_, by decide⟩
  · intro f s s' hl hlt h
    obtain ⟨c1, _, _, _, c5⟩ := scanToken_lineOk f s s' hl hlt h
    exact ⟨c1, c5⟩
  · intro src
    obtain ⟨sL, h1, _, h3⟩ := scan_lines src
    exact ⟨sL.tokens, sL.line, h1, h3⟩

/-- C13 at the state reached after `"\nread x;\n"` in the test input, cursor
at index 9 on line 3: the call consumes the comment, emits no token and
leaves the line at 4. -/
theorem C13_token_line_witness :
    ∃ s' : Scanner,
      scanToken 60
          { source := ascii "\nread x;\n/* this is a\n   multi-line comment */\nwrite x\n",
            tokens := [], start := 9, current := 9, line := 3 } = Outcome.done s'
      ∧ s'.line = 1 + newlines (s'.source.take s'.current)
      ∧ s'.line = 4 ∧ s'.current = 46 :=
  ⟨{ source := ascii "\nread x;\n/* this is a\n   multi-line comment */\nwrite x\n",
      tokens := [], start := 9, current := 46, line := 4 }, by decide,
    (C13_token_line.2.1 60
      { source := ascii "\nread x;\n/* this is a\n   multi-line comment */\nwrite x\n",
        tokens := [], start := 0, current := 9, line := 3 } _ (by decide) (by decide)
      (by decide)).1, rfl, rfl⟩

/-- C14: the line of the final `EOF` token is 1 plus the number of newlines
in the whole source, wherever they occur: between tokens, inside a terminated
comment or inside an unterminated one.  The test input, with five newlines,
ends with `EOF` on line 6. -/
theorem C14_eof_line :
    (∀ src : List Byte, ∃ ts, scan src = some (ts ++ [⟨EOF, ascii "EOF", 1 + newlines src⟩])
      ∧ ∀ t ∈ ts, t.Typ ≠ EOF)
    ∧ newlines (ascii "\nread x;\n/* this is a\n   multi-line comment */\nwrite x\n") = 5
    ∧ scan (ascii "\nread x;\n/* this is a\n   multi-line comment */\nwrite x\n") = some
        [⟨READ, ascii "read", 2⟩, ⟨IDENTIFIER, ascii "x", 2⟩, ⟨SEMICOLON, ascii ";", 2⟩,
          ⟨WRITE, ascii "write", 5⟩, ⟨IDENTIFIER, ascii "x", 5⟩, ⟨EOF, ascii "EOF", 6⟩]
    ∧ scan (ascii "x\n/* a\nb */\ny") = some
        [⟨IDENTIFIER, ascii "x", 1⟩, ⟨IDENTIFIER, ascii "y", 4⟩, ⟨EOF, ascii "EOF", 4⟩]
    ∧ scan (ascii "x\n/* a\nb\n") = some [⟨IDENTIFIER, ascii "x", 1⟩, ⟨EOF, ascii "EOF", 4⟩] := by
  refine ⟨fun src => ?_, by decide, by decide, by decide, by decide⟩
  obtain ⟨sL, h1, h2, _⟩ := scan_lines src
  obtain ⟨sL', _, _, _, e4, e5⟩ := ScanTokens_first src (src.length + 1) (Nat.lt_succ_self _)
  rw [h1] at e4
  have e := List.append_inj' (Option.some.inj e4) rfl
  refine ⟨sL.tokens, by rw [h1, h2]; rfl, ?_⟩
  rw [e.1]
  exact e5

/-- C15: the scanner reads the source byte by byte, not code point by code
point.  The valid UTF-8 source consisting of the single letter U+00E9 (bytes
`C3 A9`) is scanned as an `IDENTIFIER` whose text is the lone byte `C3`,
then an `ILLEGAL` whose text is the lone byte `A9`, then `EOF`: the token
boundary falls inside the character and neither text is the whole
character. -/
theorem C15_multibyte_character_is_split :
    utf8 "é" = [0xC3, 0xA9]
    ∧ scan (utf8 "é") = some
        [⟨IDENTIFIER, [0xC3], 1⟩, ⟨ILLEGAL, [0xA9], 1⟩, ⟨EOF, ascii "EOF", 1⟩]
    ∧ scan (utf8 "é") ≠ some [⟨IDENTIFIER, utf8 "é", 1⟩, ⟨EOF, ascii "EOF", 1⟩] := by
  decide

/-- C16: an underscore is not part of an identifier.  The scan of `"my_var"`
is `IDENTIFIER "my"`, `ILLEGAL "_"`, `IDENTIFIER "var"`, `EOF`, not the single
`IDENTIFIER "my_var"` that the comment on `IDENTIFIER` in `token.go` gives as
an example. -/
theorem C16_underscore_splits_identifier :
    scan (ascii "my_var") = some
        [⟨IDENTIFIER, ascii "my", 1⟩, ⟨ILLEGAL, ascii "_", 1⟩, ⟨IDENTIFIER, ascii "var", 1⟩,
          ⟨EOF, ascii "EOF", 1⟩]
    ∧ scan (ascii "my_var") ≠ some
        [⟨IDENTIFIER, ascii "my_var", 1⟩, ⟨EOF, ascii "EOF", 1⟩] := by
  decide

/-- C17: two sessions on the same source return identical token sequences,
whatever was scanned before.  The sessions run in a program state that holds
the package-level variable `keywords` and every `Scanner` allocated so far.
In any two states reached by earlier calls of `NewScanner` and `ScanTokens`
(any sources, any scanners, in any order) a session on `src` finishes and
returns the same slice, `scan src`; the slice returned by a session is a
function of the source and of the value of `keywords` alone; a session leaves
`keywords` and every scanner allocated before it as they were, and a call of
`ScanTokens` changes no scanner but its receiver. -/
theorem C17_sessions_agree :
    (∀ (w1 w2 : World) (src : List Byte) (f1 f2 : Nat), Reachable w1 → Reachable w2 →
        src.length < f1 → src.length < f2 →
        ∃ ts : List Token, (sessionW f1 w1 src).1 = some ts
          ∧ (sessionW f2 w2 src).1 = some ts ∧ scan src = some ts)
    ∧ (∀ (w1 w2 : World) (src : List Byte) (f : Nat), w1.keywords = w2.keywords →
        (sessionW f w1 src).1 = (sessionW f w2 src).1)
    ∧ (∀ (w : World) (src : List Byte) (f : Nat),
        (sessionW f w src).2.keywords = w.keywords
          ∧ ∀ q : Nat, q < w.heap.length → (sessionW f w src).2.heap[q]? = w.heap[q]?)
    ∧ (∀ (w : World) (f p : Nat),
        (ScanTokensW f w p).2.keywords = w.keywords
          ∧ ∀ q : Nat, q ≠ p → (ScanTokensW f w p).2.heap[q]? = w.heap[q]?) := by
  refine ⟨?_, ?_, ?_, ?_⟩
  · intro w1 w2 src f1 f2 h1 h2 hf1 hf2
    obtain ⟨ts, e1, e⟩ := sessionW_reachable f1 w1 src h1 hf1
    obtain ⟨ts2, e2, e'⟩ := sessionW_reachable f2 w2 src h2 hf2
    rw [e] at e'
    cases e'
    exact ⟨ts, e1, e2, e⟩
  · intro w1 w2 src f h
    rw [sessionW_fst, sessionW_fst, h]
  · intro w src f
    exact ⟨sessionW_keywords f w src, sessionW_heap f w src⟩
  · intro w f p
    exact ⟨ScanTokensW_keywords f w p, fun q h => ScanTokensW_heap f w p q h⟩

set_option maxRecDepth 100000 in
/-- C17 at the source `"x := 10;"`: a first session in the initial program
state, and a session in `usedWorld`, where two sessions have run and the first
scanner, called a second time, has returned six tokens. -/
theorem C17_sessions_agree_witness :
    Reachable usedWorld
    ∧ (ScanTokensW 30 (sessionW 10 (sessionW 9 initialWorld (ascii "x := 10;")).2
        (ascii "if x")).2 0).1.map List.length = some 6
    ∧ ∃ ts : List Token, (sessionW 9 initialWorld (ascii "x := 10;")).1 = some ts
        ∧ (sessionW 20 usedWorld (ascii "x := 10;")).1 = some ts
        ∧ scan (ascii "x := 10;") = some ts :=
  have hr : Reachable usedWorld :=
    Reachable.scanTokens 30 _ 0 (Reachable.scanTokens 10 _ _ (Reachable.newScanner _ _
      (Reachable.scanTokens 9 _ _ (Reachable.newScanner _ _ Reachable.start))))
  ⟨hr, by decide,
    C17_sessions_agree.1 initialWorld usedWorld (ascii "x := 10;") 9 20 Reachable.start hr
      (by decide) (by decide)⟩

/-- C18: no input is lost or duplicated.  For every source with no space,
tab, carriage return or newline and no `/*`, the texts of the tokens of the
scan other than the final `EOF`, put end to end in order, are exactly the
source. -/
theorem C18_values_concat (src : List Byte) (hblank : ∀ b ∈ src, b ∉ ascii " \t\r\n")
    (hopen : hasPair (byte '/') (byte '*') src = false) :
    ∃ ts L, scan src = some (ts ++ [⟨EOF, ascii "EOF", L⟩])
      ∧ (ts.map Token.Value).flatten = src := by
  obtain ⟨sL, h1, h2⟩ := scan_concat src (fun b hb => blank_byte b (hblank b hb)) hopen
  exact ⟨sL.tokens, sL.line, h1, h2⟩

set_option maxRecDepth 100000 in
/-- C18 at the source `"x:=10;if(y<2)then:z/_12.5"`. -/
theorem C18_values_concat_witness :
    (∃ ts L, scan (ascii "x:=10;if(y<2)then:z/_12.5") = some (ts ++ [⟨EOF, ascii "EOF", L⟩])
      ∧ (ts.map Token.Value).flatten = ascii "x:=10;if(y<2)then:z/_12.5")
    ∧ scan (ascii "x:=10;if(y<2)then:z/_12.5") = some
        [⟨IDENTIFIER, ascii "x", 1⟩, ⟨ASSIGN, ascii ":=", 1⟩, ⟨NUMBER, ascii "10", 1⟩,
          ⟨SEMICOLON, ascii ";", 1⟩, ⟨IF, ascii "if", 1⟩, ⟨OPENBRACKET, ascii "(", 1⟩,
          ⟨IDENTIFIER, ascii "y", 1⟩, ⟨LESSTHAN, ascii "<", 1⟩, ⟨NUMBER, ascii "2", 1⟩,
          ⟨CLOSEDBRACKET, ascii ")", 1⟩, ⟨THEN, ascii "then", 1⟩, ⟨ILLEGAL, ascii ":", 1⟩,
          ⟨IDENTIFIER, ascii "z", 1⟩, ⟨DIV, ascii "/", 1⟩, ⟨ILLEGAL, ascii "_", 1⟩,
          ⟨NUMBER, ascii "12", 1⟩, ⟨ILLEGAL, ascii ".", 1⟩, ⟨NUMBER, ascii "5", 1⟩,
          ⟨EOF, ascii "EOF", 1⟩] :=
  ⟨C18_values_concat (ascii "x:=10;if(y<2)then:z/_12.5") (by decide) (by decide), by decide⟩

/-- C19: in the scan of any source, the text of every token is non-empty
and contains no space, tab, carriage return or newline; so the driver's
replacement of a text containing a newline by `"newline"` changes no token of
a scan.  The scan of `"a\n\tb \r"` has the texts `a`, `b`, `EOF`. -/
theorem C19_values_have_no_blank :
    (∀ src : List Byte, ∃ ts, scan src = some ts
      ∧ ∀ t ∈ ts, t.Value ≠ [] ∧ (∀ b ∈ t.Value, b ∉ ascii " \t\r\n")
          ∧ driverValue t = t.Value)
    ∧ scan (ascii "a\n\tb \r") = some
        [⟨IDENTIFIER, ascii "a", 1⟩, ⟨IDENTIFIER, ascii "b", 2⟩, ⟨EOF, ascii "EOF", 2⟩] := by
  refine ⟨fun src => ?_, by decide⟩
  obtain ⟨ts, h1, h2⟩ := scan_values src
  refine ⟨ts, h1, fun t ht => ⟨(h2 t ht).1, (h2 t ht).2, ?_⟩⟩
  unfold driverValue
  rw [if_neg]
  intro hm
  exact (h2 t ht).2 _ hm (by decide)

/-- C20: `ScanTokens` is not idempotent on one scanner.  After a first call
on a fresh scanner, whose result is `ts` followed by `EOF` on line `L` with
no `EOF` in `ts`, a second call on the same scanner returns that result
followed by one more `EOF` on the same line `L`, two `EOF` tokens in all, and
leaves `source`, `start`, `current` and `line` as the first call left
them. -/
theorem C20_second_call_appends_eof (src : List Byte) (f : Nat) (hf : src.length < f) :
    ∃ (s1 : Scanner) (ts : List Token) (L : Nat),
      ScanTokens f (NewScanner src) = Outcome.done s1
      ∧ s1.tokens = ts ++ [⟨EOF, ascii "EOF", L⟩]
      ∧ (∀ t ∈ ts, t.Typ ≠ EOF)
      ∧ s1.line = L
      ∧ ∀ f2, 0 < f2 →
          ScanTokens f2 s1 = Outcome.done
            { source := s1.source, tokens := s1.tokens ++ [⟨EOF, ascii "EOF", L⟩],
              start := s1.start, current := s1.current, line := s1.line } := by
  obtain ⟨sL, e1, e2, e3, _, e5⟩ := ScanTokens_first src f hf
  refine ⟨_, sL.tokens, sL.line, e1, rfl, e5, rfl, fun f2 h2 => ?_⟩
  exact ScanTokens_at_end _ (by simp only []; rw [e3, e2]) f2 h2

/-- C20 at the source `"x"`: the first call returns `IDENTIFIER "x"`, `EOF`
and the second call on the resulting scanner returns `IDENTIFIER "x"`, `EOF`,
`EOF`. -/
theorem C20_second_call_appends_eof_witness :
    (∃ (s1 : Scanner) (ts : List Token) (L : Nat),
      ScanTokens 2 (NewScanner (ascii "x")) = Outcome.done s1
      ∧ s1.tokens = ts ++ [⟨EOF, ascii "EOF", L⟩]
      ∧ (∀ t ∈ ts, t.Typ ≠ EOF)
      ∧ s1.line = L
      ∧ ∀ f2, 0 < f2 →
          ScanTokens f2 s1 = Outcome.done
            { source := s1.source, tokens := s1.tokens ++ [⟨EOF, ascii "EOF", L⟩],
              start := s1.start, current := s1.current, line := s1.line })
    ∧ ScanTokens 2 (NewScanner (ascii "x")) = Outcome.done
        ⟨ascii "x", [⟨IDENTIFIER, ascii "x", 1⟩, ⟨EOF, ascii "EOF", 1⟩], 0, 1, 1⟩
    ∧ ScanTokens 1
        ⟨ascii "x", [⟨IDENTIFIER, ascii "x", 1⟩, ⟨EOF, ascii "EOF", 1⟩], 0, 1, 1⟩
      = Outcome.done
        ⟨ascii "x", [⟨IDENTIFIER, ascii "x", 1⟩, ⟨EOF, ascii "EOF", 1⟩,
          ⟨EOF, ascii "EOF", 1⟩], 0, 1, 1⟩ :=
  ⟨C20_second_call_appends_eof (ascii "x") 2 (by decide), by decide, by decide⟩

end TinyScanner
